import Mathlib

/-!
Verification of the repository script fix-shape-spreads.py.

The script reads three hard-coded files, applies three ordered regular
expression substitutions to each (re.sub with patterns pattern1, pattern2,
pattern3 and replacements replacement1, replacement2, replacement3), writes
the result back, and prints one confirmation line per file plus a final
completion line.

The text transformation is embedded shallowly over List Char.  Each of the
three regular expressions has the form

  (group)(literal tail)

where the group is either fully literal (pattern2) or consists of a literal
indent, a nonempty run of [a-zA-Z_], the literal ": ", a nonempty run of
[^,\n], and a literal "," (pattern1 with a four-space indent, pattern3 with
a two-space indent).  Matching such a pattern at a fixed position is
deterministic: each greedy character class is immediately followed by a
literal character that the class excludes ([a-zA-Z_]+ is followed by ":",
[^,\n]+ is followed by ","), so the greedy run must be the maximal run and
backtracking to a shorter run can never succeed.  The matchers below
therefore parse with maximal runs; this is exactly the set of matches the
Python regex engine finds at each position.  re.sub scans positions left to
right, replaces the leftmost match, and resumes scanning immediately after
the consumed text; reSubF below implements that scan.  All three
replacement templates are a backreference to group 1 followed by a literal
suffix, so a replacement is the matched group followed by a constant list.
-/

namespace FixShapeSpreads

/-- Character class [a-zA-Z_] from pattern1 and pattern3. -/
def isWordChar (c : Char) : Bool :=
  (decide ('a' ≤ c) && decide (c ≤ 'z')) ||
  (decide ('A' ≤ c) && decide (c ≤ 'Z')) || (c == '_')

/-- Character class [^,\n] from pattern1 and pattern3. -/
def isValChar (c : Char) : Bool :=
  !(c == ',') && !(c == '\n')

/-- Match a literal list at the head of the input and return the rest. -/
def dropLit : List Char → List Char → Option (List Char)
  | [], s => some s
  | _ :: _, [] => none
  | p :: ps, c :: cs => if c = p then dropLit ps cs else none

/-- Greedy nonempty character-class run (a regex class followed by +). -/
def run1 (p : Char → Bool) (s : List Char) : Option (List Char × List Char) :=
  match s.takeWhile p with
  | [] => none
  | c :: cs => some (c :: cs, s.dropWhile p)

/-- Group of pattern1 and pattern3: an indent, then [a-zA-Z_]+, then ": ",
then [^,\n]+, then ",".  Returns the matched group text and the rest. -/
def parseField (ind : List Char) (s : List Char) : Option (List Char × List Char) :=
  match dropLit ind s with
  | none => none
  | some s1 =>
    match run1 isWordChar s1 with
    | none => none
    | some (w, s2) =>
      match dropLit (':' :: [' ']) s2 with
      | none => none
      | some s3 =>
        match run1 isValChar s3 with
        | none => none
        | some (v, s4) =>
          match s4 with
          | [] => none
          | c :: s5 =>
            if c = ',' then some (ind ++ w ++ ':' :: ' ' :: (v ++ [',']), s5)
            else none

/-- Indent of the pattern1 group: four spaces. -/
def indent4 : List Char := [' ', ' ', ' ', ' ']

/-- Indent of the pattern3 group: two spaces. -/
def indent2 : List Char := [' ', ' ']

/-- Literal tail of pattern1 after the captured group. -/
def tail1 : List Char :=
  ("\n    ...PaginationSchema.shape\n  \x7d)\n  .strict()").toList

/-- Literal appended after group 1 by replacement1 (and replacement2). -/
def replTail1 : List Char :=
  ("\n  \x7d)\n  .merge(PaginationSchema)\n  .strict()").toList

/-- Literal group of pattern2. -/
def grp2 : List Char :=
  ("    response_format: ResponseFormatSchema").toList

/-- Literal tail of pattern2 after the captured group: the comma that
pattern2 leaves outside its group, then the same tail as pattern1. -/
def tail2 : List Char := ',' :: tail1

/-- Literal appended after group 1 by replacement2 (same text as
the suffix of replacement1; the comma is dropped by this replacement). -/
def replTail2 : List Char := replTail1

/-- Literal tail of pattern3 after the captured group. -/
def tail3 : List Char :=
  ("\n  ...PaginationSchema.shape\n\x7d)\n.strict()").toList

/-- Literal appended after group 1 by replacement3. -/
def replTail3 : List Char :=
  ("\n\x7d)\n.merge(PaginationSchema)\n.strict()").toList

/-- Match of pattern1 at the head of the input: the group, then the literal
tail.  Returns the captured group and the text after the match. -/
def match1 (s : List Char) : Option (List Char × List Char) :=
  match parseField indent4 s with
  | none => none
  | some (g, r) =>
    match dropLit tail1 r with
    | none => none
    | some a => some (g, a)

/-- Match of pattern2 at the head of the input. -/
def match2 (s : List Char) : Option (List Char × List Char) :=
  match dropLit grp2 s with
  | none => none
  | some r =>
    match dropLit tail2 r with
    | none => none
    | some a => some (grp2, a)

/-- Match of pattern3 at the head of the input. -/
def match3 (s : List Char) : Option (List Char × List Char) :=
  match parseField indent2 s with
  | none => none
  | some (g, r) =>
    match dropLit tail3 r with
    | none => none
    | some a => some (g, a)

/-- The re.sub scan: try the pattern at each position from the left; on a
match, emit the group followed by the constant replacement suffix and
resume after the consumed text; otherwise copy one character and move on.
Fuel bounds the recursion; every match consumes at least the nonempty
literal tail, so fuel equal to the length of the input suffices. -/
def reSubF (m : List Char → Option (List Char × List Char)) (r : List Char) :
    Nat → List Char → List Char
  | _, [] => []
  | 0, s => s
  | f + 1, c :: cs =>
    match m (c :: cs) with
    | some (g, a) => g ++ r ++ reSubF m r f a
    | none => c :: reSubF m r f cs

/-- One re.sub call. -/
def reSub (m : List Char → Option (List Char × List Char)) (r : List Char)
    (s : List Char) : List Char :=
  reSubF m r s.length s

/-- content = re.sub(pattern1, replacement1, content). -/
def sub1 (s : List Char) : List Char := reSub match1 replTail1 s

/-- content = re.sub(pattern2, replacement2, content). -/
def sub2 (s : List Char) : List Char := reSub match2 replTail2 s

/-- content = re.sub(pattern3, replacement3, content). -/
def sub3 (s : List Char) : List Char := reSub match3 replTail3 s

/-- The whole per-file transformation: the three substitutions in the fixed
order in which the script applies them. -/
def transform (s : List Char) : List Char := sub3 (sub2 (sub1 s))

/-- No position of s matches m (Boolean form). -/
def noMatchB (m : List Char → Option (List Char × List Char)) (s : List Char) : Bool :=
  (List.range (s.length + 1)).all fun i => (m (List.drop i s)).isNone

/-- Some position of s matches m (Boolean form). -/
def hasMatchB (m : List Char → Option (List Char × List Char)) (s : List Char) : Bool :=
  (List.range (s.length + 1)).any fun i => (m (List.drop i s)).isSome

/-- The token t occurs at position i of s (Boolean form). -/
def occursAtB (t s : List Char) (i : Nat) : Bool :=
  t.isPrefixOf (List.drop i s)

/-- The token t occurs somewhere in s (Boolean form). -/
def occursB (t s : List Char) : Bool :=
  (List.range (s.length + 1)).any fun i => occursAtB t s i

/-- The spread token that the script is meant to remove. -/
def spreadTok : List Char := ("...PaginationSchema.shape").toList

/-- The merge call that the script inserts. -/
def mergeTok : List Char := (".merge(PaginationSchema)").toList

/-- The text shape of a field line matched by the group of pattern1 or
pattern3: indent, field name, ": ", field value, trailing comma. -/
def fieldLine (ind w v : List Char) : List Char :=
  ind ++ w ++ ':' :: ' ' :: (v ++ [','])

/-- No position of s matches m (positional form). -/
def NoMatch (m : List Char → Option (List Char × List Char)) (s : List Char) : Prop :=
  ∀ i, m (List.drop i s) = none

/-- The token t occurs at position i of s (positional form). -/
def OccAt (t s : List Char) (i : Nat) : Prop :=
  i + t.length ≤ s.length ∧ ∀ d, d < t.length → t.getD d ' ' = s.getD (i + d) ' '

/-- Checker: every suffix of a disagrees with b within their overlap.  Used
to rule out matches that would straddle the border between replaced text
and what follows. -/
def mismB (a b : List Char) : Bool :=
  (List.range a.length).all fun o =>
    (List.range (min (a.length - o) b.length)).any fun d =>
      !(a.getD (o + d) ' ' == b.getD d ' ')

/-- Checker: no position of R can start an indent of n spaces followed by a
word character, even with arbitrary text appended after R. -/
def frB (n : Nat) (R : List Char) : Bool :=
  (List.range R.length).all fun k =>
    (List.range (R.length - k)).any fun d =>
      (decide (d < n) && !(R.getD (k + d) ' ' == ' ')) ||
      (d == n && !(isWordChar (R.getD (k + d) ' ')))

/-- Shape facts about a matcher m with literal tail tl whose captured group
starts with ind spaces and a word character, contains no newline, and is
followed in the match by tl. -/
structure MOk (m : List Char → Option (List Char × List Char))
    (tl : List Char) (ind : Nat) : Prop where
  tlNl : tl.getD 0 ' ' = '\n'
  tlPos : 0 < tl.length
  sound : ∀ s g a, m s = some (g, a) → s = g ++ tl ++ a
  remat : ∀ s g a, m s = some (g, a) → ∀ z, m (g ++ tl ++ z) = some (g, z)
  gNoNl : ∀ s g a, m s = some (g, a) → ∀ i, i < g.length → g.getD i ' ' ≠ '\n'
  gIndLt : ∀ s g a, m s = some (g, a) → ind < g.length
  gIndSp : ∀ s g a, m s = some (g, a) → ∀ i, i < ind → g.getD i ' ' = ' '
  gIndW : ∀ s g a, m s = some (g, a) → isWordChar (g.getD ind ' ') = true

/-- Shape facts needed of a matcher whose substitution is being scanned
over (the weaker side of the creation lemmas): the literal tail is
nonempty, a match decomposes the input as group, tail, rest, and the
captured group contains no newline. -/
structure MB (m : List Char → Option (List Char × List Char))
    (tl : List Char) : Prop where
  tlPos : 0 < tl.length
  sound : ∀ s g a, m s = some (g, a) → s = g ++ tl ++ a
  gNoNl : ∀ s g a, m s = some (g, a) → ∀ i, i < g.length → g.getD i ' ' ≠ '\n'

/-- Facts relating the pattern shape (tl, ind) to a replacement suffix R:
R starts with a newline, no suffix of tl agrees with R on their overlap,
and no position inside R can start an ind-spaces-then-word-character
sequence. -/
structure ROk (tl : List Char) (ind : Nat) (R : List Char) : Prop where
  rNl : R.getD 0 ' ' = '\n'
  rPos : 0 < R.length
  ho : ∀ o, o < tl.length →
    ∃ d, d < tl.length - o ∧ d < R.length ∧ tl.getD (o + d) ' ' ≠ R.getD d ' '
  fr : ∀ k, k < R.length → ∃ d, k + d < R.length ∧
    ((d < ind ∧ R.getD (k + d) ' ' ≠ ' ') ∨
     (d = ind ∧ isWordChar (R.getD (k + d) ' ') = false))

/-- File system model: contents of each path (none when the file cannot be
opened for reading) and whether each path can be opened for writing. -/
structure FS where
  contents : String → Option (List Char)
  writable : String → Bool

/-- The three hard-coded paths, in the order the script lists them. -/
def files_to_fix : List String :=
  ["src/tools/discovery.ts", "src/tools/reading.ts", "src/schemas/common.ts"]

/-- Result of a run: final file system, lines printed to standard output,
write events in order (path and content written), and whether the loop ran
to completion (an unhandled error aborts the run). -/
structure RunResult where
  fs : FS
  outs : List String
  writes : List (String × List Char)
  completed : Bool

/-- Writing a file: the named path now holds the new content, every other
path is untouched. -/
def writeFS (fs : FS) (p : String) (c : List Char) : FS :=
  ⟨fun q => if q = p then some c else fs.contents q, fs.writable⟩

/-- The per-file loop of the script: open and read the file (an unhandled
error aborts if it is missing), transform, open for writing and write back
(abort if not writable), print the confirmation line, continue. -/
def runFiles : FS → List String → RunResult
  | fs, [] => ⟨fs, [], [], true⟩
  | fs, p :: ps =>
    match fs.contents p, fs.writable p with
    | some c, true =>
      let rest := runFiles (writeFS fs p (transform c)) ps
      ⟨rest.fs, ("✓ Fixed " ++ p) :: rest.outs,
        (p, transform c) :: rest.writes, rest.completed⟩
    | _, _ => ⟨fs, [], [], false⟩

/-- A sample file system holding the three expected files; the second file
has no occurrence of any pattern, the third holds a pattern3 block. -/
def sampleFS : FS :=
  ⟨fun q =>
    if q = "src/tools/discovery.ts" then some (("a, b\n").toList)
    else if q = "src/tools/reading.ts" then some []
    else if q = "src/schemas/common.ts" then
      some (("  x: y,\n  ...PaginationSchema.shape\n\x7d)\n.strict()").toList)
    else none,
   fun _ => true⟩

/-- A sample file system whose second listed file is missing. -/
def brokenFS : FS :=
  ⟨fun q => if q = "src/tools/discovery.ts" then some (("a\n").toList) else none,
   fun _ => true⟩

/-- The sample file system with one extra unrelated file: it agrees with
sampleFS on the three listed paths. -/
def sampleFS2 : FS :=
  ⟨fun q => if q = "notes.txt" then some [] else sampleFS.contents q,
   fun _ => true⟩

/-- The final print of the script. -/
def doneLine : String := "\nDone! All files fixed."

/-- The whole script: the loop over files_to_fix, then the completion
line if no unhandled error occurred. -/
def runScript (fs : FS) : RunResult :=
  let r := runFiles fs files_to_fix
  if r.completed then ⟨r.fs, r.outs ++ [doneLine], r.writes, true⟩ else r

/-! Basic positional helpers. -/

theorem getD_ar (a b : List Char) (i : Nat) :
    (a ++ b).getD (a.length + i) ' ' = b.getD i ' ' := by
  rw [List.getD_append_right a b ' ' _ (by omega)]
  simp

theorem getD_al (a b : List Char) (i : Nat) (h : i < a.length) :
    (a ++ b).getD i ' ' = a.getD i ' ' :=
  List.getD_append a b ' ' i h

theorem getD_drop (s : List Char) (i d : Nat) :
    (List.drop i s).getD d ' ' = s.getD (i + d) ' ' := by
  rw [List.getD_eq_getD_get?, List.getD_eq_getD_get?, List.get?_drop]

theorem getD_mem (l : List Char) (i : Nat) (h : i < l.length) : l.getD i ' ' ∈ l := by
  rw [List.getD_eq_getElem l ' ' h]
  exact List.getElem_mem h

/-! Lemmas about the literal and class-run parsers. -/

theorem dropLit_sound (p : List Char) :
    ∀ s r, dropLit p s = some r → s = p ++ r := by
  induction p with
  | nil =>
    intro s r h
    simp only [dropLit, Option.some.injEq] at h
    simp [h]
  | cons c cs ih =>
    intro s r h
    cases s with
    | nil => simp [dropLit] at h
    | cons x xs =>
      by_cases hx : x = c
      · subst hx
        simp only [dropLit, if_pos rfl] at h
        simp [ih xs r h]
      · simp [dropLit, hx] at h

theorem dropLit_self (p z : List Char) : dropLit p (p ++ z) = some z := by
  induction p with
  | nil => simp [dropLit]
  | cons c cs ih => simp [dropLit, ih]

theorem run1_sound (p : Char → Bool) (s w r : List Char) (h : run1 p s = some (w, r)) :
    s = w ++ r ∧ w ≠ [] ∧ ∀ c ∈ w, p c = true := by
  unfold run1 at h
  rcases htw : s.takeWhile p with _ | ⟨c, cs⟩
  · rw [htw] at h; simp at h
  · rw [htw] at h
    simp only [Option.some.injEq, Prod.mk.injEq] at h
    obtain ⟨hw, hr⟩ := h
    refine ⟨?_, ?_, ?_⟩
    · rw [← hw, ← hr, ← htw, List.takeWhile_append_dropWhile]
    · rw [← hw]; simp
    · intro x hx
      rw [← hw] at hx
      exact List.mem_takeWhile_imp (htw ▸ hx)

theorem takeWhile_all_stop (p : Char → Bool) :
    ∀ (w : List Char), (∀ c ∈ w, p c = true) → ∀ b z, p b = false →
      (w ++ b :: z).takeWhile p = w ∧ (w ++ b :: z).dropWhile p = b :: z := by
  intro w
  induction w with
  | nil =>
    intro _ b z hb
    simp [List.takeWhile_cons, List.dropWhile_cons, hb]
  | cons c cs ih =>
    intro hall b z hb
    have hc : p c = true := hall c (by simp)
    have hr := ih (fun x hx => hall x (by simp [hx])) b z hb
    simp [List.takeWhile_cons, List.dropWhile_cons, hc, hr.1, hr.2]

theorem run1_self (p : Char → Bool) (w : List Char) (hw : w ≠ [])
    (hall : ∀ c ∈ w, p c = true) (b : Char) (hb : p b = false) (z : List Char) :
    run1 p (w ++ b :: z) = some (w, b :: z) := by
  have hts := takeWhile_all_stop p w hall b z hb
  unfold run1
  rw [hts.1, hts.2]
  cases w with
  | nil => exact absurd rfl hw
  | cons c cs => rfl

/-! Lemmas about the group parser. -/

theorem parseField_sound (ind s g r : List Char) (h : parseField ind s = some (g, r)) :
    ∃ w v, w ≠ [] ∧ (∀ c ∈ w, isWordChar c = true) ∧ v ≠ [] ∧
      (∀ c ∈ v, isValChar c = true) ∧
      g = ind ++ w ++ ':' :: ' ' :: (v ++ [',']) ∧ s = g ++ r := by
  unfold parseField at h
  split at h
  · simp at h
  rename_i s1 h1
  split at h
  · simp at h
  rename_i w s2 h2
  split at h
  · simp at h
  rename_i s3 h3
  split at h
  · simp at h
  rename_i v s4 h4
  split at h
  · simp at h
  rename_i c4 s5
  by_cases hcm : c4 = ','
  · subst hcm
    rw [if_pos rfl] at h
    simp only [Option.some.injEq, Prod.mk.injEq] at h
    obtain ⟨hg, hr⟩ := h
    obtain ⟨hs1, hwne, hwall⟩ := run1_sound _ _ _ _ h2
    obtain ⟨hs3, hvne, hvall⟩ := run1_sound _ _ _ _ h4
    refine ⟨w, v, hwne, hwall, hvne, hvall, hg.symm, ?_⟩
    have hsind := dropLit_sound _ _ _ h1
    have hs2 := dropLit_sound _ _ _ h3
    subst hr
    rw [hsind, hs1, hs2, hs3, ← hg]
    simp
  · rw [if_neg hcm] at h
    simp at h

theorem parseField_self (ind w v : List Char) (hw : w ≠ [])
    (hwall : ∀ c ∈ w, isWordChar c = true) (hv : v ≠ [])
    (hvall : ∀ c ∈ v, isValChar c = true) (r : List Char) :
    parseField ind (ind ++ (w ++ ':' :: ' ' :: (v ++ ',' :: r))) =
      some (ind ++ w ++ ':' :: ' ' :: (v ++ [',']), r) := by
  unfold parseField
  rw [dropLit_self ind]
  dsimp only
  rw [show w ++ ':' :: ' ' :: (v ++ ',' :: r) = w ++ ':' :: (' ' :: (v ++ ',' :: r)) from rfl]
  rw [run1_self isWordChar w hw hwall ':' (by decide) (' ' :: (v ++ ',' :: r))]
  dsimp only
  rw [show (':' :: (' ' :: (v ++ ',' :: r))) = [':', ' '] ++ (v ++ ',' :: r) from rfl]
  rw [dropLit_self [':', ' ']]
  dsimp only
  rw [run1_self isValChar v hv hvall ',' (by decide) r]
  dsimp only
  rw [if_pos rfl]

theorem parseField_self' (ind w v r : List Char) (hw : w ≠ [])
    (hwall : ∀ c ∈ w, isWordChar c = true) (hv : v ≠ [])
    (hvall : ∀ c ∈ v, isValChar c = true) :
    parseField ind ((ind ++ w ++ ':' :: ' ' :: (v ++ [','])) ++ r) =
      some (ind ++ w ++ ':' :: ' ' :: (v ++ [',']), r) := by
  rw [show (ind ++ w ++ ':' :: ' ' :: (v ++ [','])) ++ r
      = ind ++ (w ++ ':' :: ' ' :: (v ++ ',' :: r)) by simp]
  exact parseField_self ind w v hw hwall hv hvall r

/-! Inversion and re-match lemmas for the three matchers. -/

theorem match1_inv (s g a : List Char) (h : match1 s = some (g, a)) :
    ∃ w v, w ≠ [] ∧ (∀ c ∈ w, isWordChar c = true) ∧ v ≠ [] ∧
      (∀ c ∈ v, isValChar c = true) ∧
      g = indent4 ++ w ++ ':' :: ' ' :: (v ++ [',']) ∧ s = g ++ tail1 ++ a := by
  unfold match1 at h
  split at h
  · simp at h
  rename_i g0 r h1
  split at h
  · simp at h
  rename_i a0 h2
  simp only [Option.some.injEq, Prod.mk.injEq] at h
  obtain ⟨hg, ha⟩ := h
  subst hg
  subst ha
  obtain ⟨w, v, hw, hwall, hv, hvall, hgs, hs⟩ := parseField_sound _ _ _ _ h1
  have hr := dropLit_sound _ _ _ h2
  exact ⟨w, v, hw, hwall, hv, hvall, hgs, by rw [hs, hr, List.append_assoc]⟩

theorem match1_remat (s g a : List Char) (h : match1 s = some (g, a)) :
    ∀ z, match1 (g ++ tail1 ++ z) = some (g, z) := by
  intro z
  obtain ⟨w, v, hw, hwall, hv, hvall, hgs, _⟩ := match1_inv s g a h
  unfold match1
  rw [List.append_assoc, hgs, parseField_self' indent4 w v (tail1 ++ z) hw hwall hv hvall]
  dsimp only
  rw [dropLit_self]

theorem match2_inv (s g a : List Char) (h : match2 s = some (g, a)) :
    g = grp2 ∧ s = g ++ tail2 ++ a := by
  unfold match2 at h
  split at h
  · simp at h
  rename_i r h1
  split at h
  · simp at h
  rename_i a0 h2
  simp only [Option.some.injEq, Prod.mk.injEq] at h
  obtain ⟨hg, ha⟩ := h
  subst hg
  subst ha
  have hs := dropLit_sound _ _ _ h1
  have hr := dropLit_sound _ _ _ h2
  exact ⟨rfl, by rw [hs, hr, List.append_assoc]⟩

theorem match2_remat (s g a : List Char) (h : match2 s = some (g, a)) :
    ∀ z, match2 (g ++ tail2 ++ z) = some (g, z) := by
  intro z
  obtain ⟨hg, _⟩ := match2_inv s g a h
  subst hg
  unfold match2
  rw [List.append_assoc, dropLit_self]
  dsimp only
  rw [dropLit_self]

theorem match3_inv (s g a : List Char) (h : match3 s = some (g, a)) :
    ∃ w v, w ≠ [] ∧ (∀ c ∈ w, isWordChar c = true) ∧ v ≠ [] ∧
      (∀ c ∈ v, isValChar c = true) ∧
      g = indent2 ++ w ++ ':' :: ' ' :: (v ++ [',']) ∧ s = g ++ tail3 ++ a := by
  unfold match3 at h
  split at h
  · simp at h
  rename_i g0 r h1
  split at h
  · simp at h
  rename_i a0 h2
  simp only [Option.some.injEq, Prod.mk.injEq] at h
  obtain ⟨hg, ha⟩ := h
  subst hg
  subst ha
  obtain ⟨w, v, hw, hwall, hv, hvall, hgs, hs⟩ := parseField_sound _ _ _ _ h1
  have hr := dropLit_sound _ _ _ h2
  exact ⟨w, v, hw, hwall, hv, hvall, hgs, by rw [hs, hr, List.append_assoc]⟩

theorem match3_remat (s g a : List Char) (h : match3 s = some (g, a)) :
    ∀ z, match3 (g ++ tail3 ++ z) = some (g, z) := by
  intro z
  obtain ⟨w, v, hw, hwall, hv, hvall, hgs, _⟩ := match3_inv s g a h
  unfold match3
  rw [List.append_assoc, hgs, parseField_self' indent2 w v (tail3 ++ z) hw hwall hv hvall]
  dsimp only
  rw [dropLit_self]

/-! Character facts about parsed groups. -/

theorem field_group_noNl (ind w v : List Char) (hind : ∀ c ∈ ind, c = ' ')
    (hwall : ∀ c ∈ w, isWordChar c = true) (hvall : ∀ c ∈ v, isValChar c = true) :
    ∀ c ∈ ind ++ w ++ ':' :: ' ' :: (v ++ [',']), c ≠ '\n' := by
  intro c hc heq
  subst heq
  simp only [List.mem_append, List.mem_cons] at hc
  rcases hc with (hc | hc) | hc | hc | hc | hc
  · exact absurd (hind _ hc) (by decide)
  · exact absurd (hwall _ hc) (by decide)
  · exact absurd hc (by decide)
  · exact absurd hc (by decide)
  · exact absurd (hvall _ hc) (by decide)
  · exact absurd hc (by decide)

theorem mok1 : MOk match1 tail1 4 := by
  refine ⟨by decide, by decide, ?_, match1_remat, ?_, ?_, ?_, ?_⟩
  · intro s g a h
    obtain ⟨_, _, _, _, _, _, _, hs⟩ := match1_inv s g a h
    exact hs
  · intro s g a h i hi hnl
    obtain ⟨w, v, _, hwall, _, hvall, hgs, _⟩ := match1_inv s g a h
    have hm := getD_mem g i hi
    rw [hnl] at hm
    rw [hgs] at hm
    exact field_group_noNl indent4 w v (by decide) hwall hvall _ hm rfl
  · intro s g a h
    obtain ⟨w, v, hw, _, _, _, hgs, _⟩ := match1_inv s g a h
    have hwl : 1 ≤ w.length := List.length_pos.mpr hw
    rw [hgs]
    simp only [List.length_append, List.length_cons, indent4]
    omega
  · intro s g a h i hi
    obtain ⟨w, v, _, _, _, _, hgs, _⟩ := match1_inv s g a h
    rw [hgs, show indent4 ++ w ++ ':' :: ' ' :: (v ++ [','])
        = indent4 ++ (w ++ ':' :: ' ' :: (v ++ [','])) by simp]
    rw [getD_al indent4 _ i (by simpa [indent4] using hi)]
    interval_cases i <;> decide
  · intro s g a h
    obtain ⟨w, v, hw, hwall, _, _, hgs, _⟩ := match1_inv s g a h
    rw [hgs, show indent4 ++ w ++ ':' :: ' ' :: (v ++ [','])
        = indent4 ++ (w ++ ':' :: ' ' :: (v ++ [','])) by simp]
    rw [show (4 : Nat) = indent4.length + 0 by decide, getD_ar]
    have hwl : 0 < w.length := List.length_pos.mpr hw
    rw [getD_al w _ 0 hwl]
    exact hwall _ (getD_mem w 0 hwl)


theorem mok3 : MOk match3 tail3 2 := by
  refine ⟨by decide, by decide, ?_, match3_remat, ?_, ?_, ?_, ?_⟩
  · intro s g a h
    obtain ⟨_, _, _, _, _, _, _, hs⟩ := match3_inv s g a h
    exact hs
  · intro s g a h i hi hnl
    obtain ⟨w, v, _, hwall, _, hvall, hgs, _⟩ := match3_inv s g a h
    have hm := getD_mem g i hi
    rw [hnl] at hm
    rw [hgs] at hm
    exact field_group_noNl indent2 w v (by decide) hwall hvall _ hm rfl
  · intro s g a h
    obtain ⟨w, v, hw, _, _, _, hgs, _⟩ := match3_inv s g a h
    have hwl : 1 ≤ w.length := List.length_pos.mpr hw
    rw [hgs]
    simp only [List.length_append, List.length_cons, indent2]
    omega
  · intro s g a h i hi
    obtain ⟨w, v, _, _, _, _, hgs, _⟩ := match3_inv s g a h
    rw [hgs, show indent2 ++ w ++ ':' :: ' ' :: (v ++ [','])
        = indent2 ++ (w ++ ':' :: ' ' :: (v ++ [','])) by simp]
    rw [getD_al indent2 _ i (by simpa [indent2] using hi)]
    interval_cases i <;> decide
  · intro s g a h
    obtain ⟨w, v, hw, hwall, _, _, hgs, _⟩ := match3_inv s g a h
    rw [hgs, show indent2 ++ w ++ ':' :: ' ' :: (v ++ [','])
        = indent2 ++ (w ++ ':' :: ' ' :: (v ++ [','])) by simp]
    rw [show (2 : Nat) = indent2.length + 0 by decide, getD_ar]
    have hwl : 0 < w.length := List.length_pos.mpr hw
    rw [getD_al w _ 0 hwl]
    exact hwall _ (getD_mem w 0 hwl)

theorem mb1 : MB match1 tail1 := ⟨mok1.tlPos, mok1.sound, mok1.gNoNl⟩

theorem mb3 : MB match3 tail3 := ⟨mok3.tlPos, mok3.sound, mok3.gNoNl⟩

theorem mb2 : MB match2 tail2 := by
  refine ⟨by decide, ?_, ?_⟩
  · intro s g a h
    exact (match2_inv s g a h).2
  · intro s g a h i hi hnl
    obtain ⟨hg, _⟩ := match2_inv s g a h
    subst hg
    have hm := getD_mem grp2 i hi
    rw [hnl] at hm
    revert hm
    decide

/-! Bridges from the Boolean overlap checkers to their positional facts. -/

theorem mismB_spec (a b : List Char) (h : mismB a b = true) :
    ∀ o, o < a.length →
      ∃ d, d < a.length - o ∧ d < b.length ∧ a.getD (o + d) ' ' ≠ b.getD d ' ' := by
  intro o ho
  have h1 := List.all_eq_true.mp h o (List.mem_range.mpr ho)
  obtain ⟨d, hd, hne⟩ := List.any_eq_true.mp h1
  have hdr := List.mem_range.mp hd
  refine ⟨d, ?_, ?_, ?_⟩
  · omega
  · omega
  · intro he
    rw [he] at hne
    simp at hne

theorem frB_spec (n : Nat) (R : List Char) (h : frB n R = true) :
    ∀ k, k < R.length → ∃ d, k + d < R.length ∧
      ((d < n ∧ R.getD (k + d) ' ' ≠ ' ') ∨
       (d = n ∧ isWordChar (R.getD (k + d) ' ') = false)) := by
  intro k hk
  have h1 := List.all_eq_true.mp h k (List.mem_range.mpr hk)
  obtain ⟨d, hd, hor⟩ := List.any_eq_true.mp h1
  have hdr := List.mem_range.mp hd
  refine ⟨d, by omega, ?_⟩
  simp only [Bool.or_eq_true, Bool.and_eq_true, decide_eq_true_eq,
    Bool.not_eq_true', beq_eq_false_iff_ne, beq_iff_eq] at hor
  rcases hor with ⟨hlt, hne⟩ | ⟨heq, hnw⟩
  · exact Or.inl ⟨hlt, hne⟩
  · exact Or.inr ⟨heq, hnw⟩

theorem rok11 : ROk tail1 4 replTail1 :=
  ⟨by decide, by decide, mismB_spec tail1 replTail1 (by decide),
   frB_spec 4 replTail1 (by decide)⟩

theorem rok13 : ROk tail1 4 replTail3 :=
  ⟨by decide, by decide, mismB_spec tail1 replTail3 (by decide),
   frB_spec 4 replTail3 (by decide)⟩

theorem rok33 : ROk tail3 2 replTail3 :=
  ⟨by decide, by decide, mismB_spec tail3 replTail3 (by decide),
   frB_spec 2 replTail3 (by decide)⟩

/-! The re.sub scan: unfolding equations, fuel irrelevance, and the
first-match decomposition. -/

theorem mb_nil {m : List Char → Option (List Char × List Char)} {tl : List Char}
    (hmb : MB m tl) : m [] = none := by
  cases h : m [] with
  | none => rfl
  | some ga =>
    obtain ⟨g, a⟩ := ga
    have hs := hmb.sound [] g a h
    have hl := congrArg List.length hs
    have ht := hmb.tlPos
    simp [List.length_append] at hl
    omega

theorem reSubF_nil (m : List Char → Option (List Char × List Char))
    (r : List Char) (f : Nat) : reSubF m r f [] = [] := by
  cases f <;> rfl

theorem reSubF_cons (m : List Char → Option (List Char × List Char))
    (r : List Char) (f : Nat) (c : Char) (cs : List Char) :
    reSubF m r (f + 1) (c :: cs) =
      match m (c :: cs) with
      | some (g, a) => g ++ r ++ reSubF m r f a
      | none => c :: reSubF m r f cs := rfl

theorem match_len_le {m : List Char → Option (List Char × List Char)} {tl : List Char}
    (hmb : MB m tl) {c : Char} {cs g a : List Char} (h : m (c :: cs) = some (g, a)) :
    a.length ≤ cs.length := by
  have hs := hmb.sound _ g a h
  have hl := congrArg List.length hs
  have ht := hmb.tlPos
  simp [List.length_append] at hl
  omega

theorem reSubF_fuel {m : List Char → Option (List Char × List Char)} {tl : List Char}
    (hmb : MB m tl) (r : List Char) :
    ∀ f1 f2 s, s.length ≤ f1 → s.length ≤ f2 → reSubF m r f1 s = reSubF m r f2 s := by
  intro f1
  induction f1 with
  | zero =>
    intro f2 s h1 _
    have : s = [] := List.eq_nil_of_length_eq_zero (by omega)
    subst this
    rw [reSubF_nil, reSubF_nil]
  | succ f ih =>
    intro f2 s h1 h2
    cases s with
    | nil => rw [reSubF_nil, reSubF_nil]
    | cons c cs =>
      cases f2 with
      | zero => simp at h2
      | succ f2' =>
        rw [reSubF_cons, reSubF_cons]
        cases h : m (c :: cs) with
        | some ga =>
          obtain ⟨g, a⟩ := ga
          have hle := match_len_le hmb h
          simp only [List.length_cons] at h1 h2
          dsimp only
          rw [ih f2' a (by omega) (by omega)]
        | none =>
          simp only [List.length_cons] at h1 h2
          dsimp only
          rw [ih f2' cs (by omega) (by omega)]

theorem reSub_nil (m : List Char → Option (List Char × List Char)) (r : List Char) :
    reSub m r [] = [] := rfl

theorem reSub_cons_none {m : List Char → Option (List Char × List Char)}
    (r : List Char) {c : Char} {cs : List Char} (h : m (c :: cs) = none) :
    reSub m r (c :: cs) = c :: reSub m r cs := by
  unfold reSub
  rw [show (c :: cs).length = cs.length + 1 from rfl, reSubF_cons]
  rw [h]

theorem reSub_cons_some {m : List Char → Option (List Char × List Char)} {tl : List Char}
    (hmb : MB m tl) (r : List Char) {c : Char} {cs g a : List Char}
    (h : m (c :: cs) = some (g, a)) :
    reSub m r (c :: cs) = g ++ r ++ reSub m r a := by
  unfold reSub
  rw [show (c :: cs).length = cs.length + 1 from rfl, reSubF_cons]
  rw [h]
  dsimp only
  have hle := match_len_le hmb h
  rw [reSubF_fuel hmb r cs.length a.length a (by omega) (by omega)]

theorem reSub_decomp {m : List Char → Option (List Char × List Char)} {tl : List Char}
    (hmb : MB m tl) (r : List Char) :
    ∀ s, (NoMatch m s ∧ reSub m r s = s) ∨
      ∃ u g a, s = u ++ g ++ tl ++ a ∧
        reSub m r s = u ++ g ++ r ++ reSub m r a ∧
        (∀ i, i < u.length → m (List.drop i s) = none) ∧
        m (g ++ tl ++ a) = some (g, a) := by
  intro s
  generalize hn : s.length = n
  induction n using Nat.strong_induction_on generalizing s with
  | _ n ih =>
    cases s with
    | nil =>
      left
      exact ⟨fun i => by simpa using mb_nil hmb, reSub_nil m r⟩
    | cons c cs =>
      cases h : m (c :: cs) with
      | some ga =>
        obtain ⟨g, a⟩ := ga
        right
        have hs := hmb.sound _ g a h
        refine ⟨[], g, a, by simpa using hs, ?_, fun i hi => absurd hi (by simp), ?_⟩
        · rw [reSub_cons_some hmb r h]
          simp
        · rw [← hs]
          exact h
      | none =>
        have hcs : cs.length < n := by subst hn; simp
        rcases ih cs.length hcs cs rfl with ⟨hno, hid⟩ | ⟨u, g, a, hs, hr, hu, hm⟩
        · left
          constructor
          · intro i
            cases i with
            | zero => exact h
            | succ j => rw [List.drop_succ_cons]; exact hno j
          · rw [reSub_cons_none r h, hid]
        · right
          refine ⟨c :: u, g, a, by simp [hs], ?_, ?_, hm⟩
          · rw [reSub_cons_none r h, hr]
            simp
          · intro i hi
            cases i with
            | zero => exact h
            | succ j =>
              rw [List.drop_succ_cons]
              exact hu j (by simpa using hi)

theorem noMatch_id {m : List Char → Option (List Char × List Char)} {tl : List Char}
    (hmb : MB m tl) (r : List Char) (s : List Char) (h : NoMatch m s) :
    reSub m r s = s := by
  rcases reSub_decomp hmb r s with ⟨_, hid⟩ | ⟨u, g, a, hs, _, _, hm⟩
  · exact hid
  · exfalso
    have hdrop : List.drop u.length s = g ++ tl ++ a := by
      rw [hs, show u ++ g ++ tl ++ a = u ++ (g ++ tl ++ a) by simp, List.drop_left]
    have := h u.length
    rw [hdrop, hm] at this
    simp at this

/-! Positional helpers for three-part concatenations. -/

theorem getD_mid (g tl a : List Char) (j : Nat) (hj : j < tl.length) :
    (g ++ tl ++ a).getD (g.length + j) ' ' = tl.getD j ' ' := by
  rw [show g ++ tl ++ a = g ++ (tl ++ a) by simp, getD_ar, getD_al _ _ _ hj]

theorem getD_gpart (g tl a : List Char) (j : Nat) (hj : j < g.length) :
    (g ++ tl ++ a).getD j ' ' = g.getD j ' ' := by
  rw [show g ++ tl ++ a = g ++ (tl ++ a) by simp, getD_al _ _ _ hj]

/-! Zone lemmas: a pattern match cannot start inside a replacement suffix
(zR), nor inside newline-free text followed by a replacement suffix (zG),
nor at a position where the original text had no match, with the original
continuation exchanged for a replacement suffix (zU).  Together these say
that a substitution never manufactures a new match. -/

theorem zR {m : List Char → Option (List Char × List Char)} {tl : List Char}
    {ind : Nat} (hma : MOk m tl ind) {R : List Char} (hro : ROk tl ind R) :
    ∀ k y, k < R.length → m (List.drop k R ++ y) = none := by
  intro k y hk
  cases h : m (List.drop k R ++ y) with
  | none => rfl
  | some ga =>
    exfalso
    obtain ⟨g, a⟩ := ga
    have hs := hma.sound _ g a h
    obtain ⟨d, hdR, hdisj⟩ := hro.fr k hk
    have hglt := hma.gIndLt _ g a h
    have hdg : d < g.length := by
      rcases hdisj with ⟨hd, _⟩ | ⟨hd, _⟩ <;> omega
    have hL : (List.drop k R ++ y).getD d ' ' = R.getD (k + d) ' ' := by
      rw [getD_al _ _ _ (by rw [List.length_drop]; omega), getD_drop]
    have heq : R.getD (k + d) ' ' = g.getD d ' ' := by
      rw [← hL, hs, getD_gpart _ _ _ _ hdg]
    rcases hdisj with ⟨hd, hne⟩ | ⟨hd, hnw⟩
    · exact hne (by rw [heq, hma.gIndSp _ g a h d hd])
    · subst hd
      rw [heq, hma.gIndW _ g a h] at hnw
      simp at hnw

theorem zG {m : List Char → Option (List Char × List Char)} {tl : List Char}
    {ind : Nat} (hma : MOk m tl ind) {R : List Char} (hro : ROk tl ind R) :
    ∀ z y, (∀ i, i < z.length → z.getD i ' ' ≠ '\n') → m (z ++ R ++ y) = none := by
  intro z y hz
  cases h : m (z ++ R ++ y) with
  | none => rfl
  | some ga =>
    exfalso
    obtain ⟨g, a⟩ := ga
    have hs := hma.sound _ g a h
    rcases Nat.lt_trichotomy g.length z.length with hlt | heq | hgt
    · have hcontra : z.getD g.length ' ' = '\n' := by
        rw [← getD_gpart z R y g.length hlt, hs,
          show g.length = g.length + 0 by omega,
          getD_mid g tl a 0 hma.tlPos]
        exact hma.tlNl
      exact hz g.length hlt hcontra
    · obtain ⟨d, hdtl, hdR, hne⟩ := hro.ho 0 hma.tlPos
      rw [Nat.zero_add] at hne
      apply hne
      rw [show tl.getD d ' ' = (g ++ tl ++ a).getD (g.length + d) ' ' from
          (getD_mid g tl a d (by omega)).symm, ← hs, heq,
        getD_mid z R y d hdR]
    · have hcontra : g.getD z.length ' ' = '\n' := by
        rw [← getD_gpart g tl a z.length hgt, ← hs,
          show z.length = z.length + 0 by omega,
          getD_mid z R y 0 hro.rPos]
        exact hro.rNl
      exact hma.gNoNl _ g a h z.length hgt hcontra

theorem zU {m : List Char → Option (List Char × List Char)} {tl : List Char}
    {ind : Nat} (hma : MOk m tl ind) {R : List Char} (hro : ROk tl ind R) :
    ∀ pi e y, m (pi ++ e) = none → m (pi ++ R ++ y) = none := by
  intro pi e y h0
  cases h : m (pi ++ R ++ y) with
  | none => rfl
  | some ga =>
    exfalso
    obtain ⟨g, a⟩ := ga
    have hs := hma.sound _ g a h
    rcases Nat.lt_or_ge pi.length g.length with hB | hge
    · have hcontra : g.getD pi.length ' ' = '\n' := by
        rw [← getD_gpart g tl a pi.length hB, ← hs,
          show pi.length = pi.length + 0 by omega,
          getD_mid pi R y 0 hro.rPos]
        exact hro.rNl
      exact hma.gNoNl _ g a h pi.length hB hcontra
    rcases Nat.lt_or_ge pi.length (g.length + tl.length) with hC | hA
    · obtain ⟨d, hdtl, hdR, hne⟩ := hro.ho (pi.length - g.length) (by omega)
      apply hne
      rw [show tl.getD (pi.length - g.length + d) ' '
            = (g ++ tl ++ a).getD (g.length + (pi.length - g.length + d)) ' ' from
          (getD_mid g tl a _ (by omega)).symm, ← hs,
        show g.length + (pi.length - g.length + d) = pi.length + d by omega,
        getD_mid pi R y d hdR]
    · have htake : pi.take (g.length + tl.length) = g ++ tl := by
        have h1 : (pi ++ (R ++ y)).take (g.length + tl.length)
            = pi.take (g.length + tl.length) := by
          rw [List.take_append_eq_append_take,
            show g.length + tl.length - pi.length = 0 by omega]
          simp
        have h2 : ((g ++ tl) ++ a).take ((g ++ tl).length) = g ++ tl := List.take_left _ _
        rw [← h1, show pi ++ (R ++ y) = pi ++ R ++ y by simp, hs]
        rw [show g ++ tl ++ a = (g ++ tl) ++ a by simp] at *
        simpa [List.length_append] using h2
      have hpi : pi = (g ++ tl) ++ pi.drop (g.length + tl.length) := by
        conv_lhs => rw [← List.take_append_drop (g.length + tl.length) pi]
        rw [htake]
      have hre := hma.remat _ g a h (pi.drop (g.length + tl.length) ++ e)
      rw [hpi, show ((g ++ tl) ++ List.drop (g.length + tl.length) pi) ++ e
          = g ++ tl ++ (List.drop (g.length + tl.length) pi ++ e) by simp] at h0
      rw [hre] at h0
      simp at h0

theorem drop_app_le (a b : List Char) (i : Nat) (h : i ≤ a.length) :
    List.drop i (a ++ b) = List.drop i a ++ b := by
  rw [List.drop_append_eq_append_drop, show i - a.length = 0 by omega]
  rfl

theorem drop_app_ge (a b : List Char) (i : Nat) (h : a.length ≤ i) :
    List.drop i (a ++ b) = List.drop (i - a.length) b := by
  rw [List.drop_append_eq_append_drop, List.drop_eq_nil_of_le h]
  rfl

/-- A substitution never leaves or creates a match of its own pattern: the
output of the scan contains no position matching the pattern. -/
theorem noCreate_self {m : List Char → Option (List Char × List Char)}
    {tl : List Char} {ind : Nat} {R : List Char}
    (hma : MOk m tl ind) (hmb : MB m tl) (hro : ROk tl ind R) :
    ∀ s, NoMatch m (reSub m R s) := by
  intro s
  generalize hn : s.length = n
  induction n using Nat.strong_induction_on generalizing s with
  | _ n ih =>
    rcases reSub_decomp hmb R s with ⟨hno, hid⟩ | ⟨u, g, a, hs, hr, hu, hm⟩
    · rw [hid]; exact hno
    · rw [hr]
      intro i
      rcases Nat.lt_or_ge i u.length with hiu | hge1
      · have hdrop : List.drop i (u ++ g ++ R ++ reSub m R a)
            = (List.drop i u ++ g) ++ R ++ reSub m R a := by
          rw [show u ++ g ++ R ++ reSub m R a = u ++ (g ++ R ++ reSub m R a) by simp,
            drop_app_le u _ i (by omega)]
          simp
        have h0 : m ((List.drop i u ++ g) ++ (tl ++ a)) = none := by
          have h1 := hu i hiu
          rw [hs, show u ++ g ++ tl ++ a = u ++ (g ++ tl ++ a) by simp,
            drop_app_le u _ i (by omega)] at h1
          rw [show (List.drop i u ++ g) ++ (tl ++ a)
              = List.drop i u ++ (g ++ tl ++ a) by simp]
          exact h1
        rw [hdrop]
        exact zU hma hro _ _ _ h0
      rcases Nat.lt_or_ge i (u.length + g.length) with hig | hge2
      · have hdrop : List.drop i (u ++ g ++ R ++ reSub m R a)
            = List.drop (i - u.length) g ++ R ++ reSub m R a := by
          rw [show u ++ g ++ R ++ reSub m R a = u ++ (g ++ (R ++ reSub m R a)) by simp,
            drop_app_ge u _ i (by omega),
            drop_app_le g _ (i - u.length) (by omega)]
          simp
        rw [hdrop]
        apply zG hma hro
        intro j hj
        rw [getD_drop]
        rw [List.length_drop] at hj
        exact hma.gNoNl _ g a hm _ (by omega)
      rcases Nat.lt_or_ge i (u.length + g.length + R.length) with hiR | hge3
      · have hdrop : List.drop i (u ++ g ++ R ++ reSub m R a)
            = List.drop (i - u.length - g.length) R ++ reSub m R a := by
          rw [show u ++ g ++ R ++ reSub m R a = u ++ (g ++ (R ++ reSub m R a)) by simp,
            drop_app_ge u _ i (by omega),
            drop_app_ge g _ (i - u.length) (by omega),
            drop_app_le R _ _ (by omega)]
        rw [hdrop]
        exact zR hma hro _ _ (by omega)
      · have hdrop : List.drop i (u ++ g ++ R ++ reSub m R a)
            = List.drop (i - u.length - g.length - R.length) (reSub m R a) := by
          rw [show u ++ g ++ R ++ reSub m R a = u ++ (g ++ (R ++ reSub m R a)) by simp,
            drop_app_ge u _ i (by omega),
            drop_app_ge g _ (i - u.length) (by omega),
            drop_app_ge R _ _ (by omega)]
        rw [hdrop]
        have hlen : a.length < n := by
          subst hn
          rw [hs]
          have := hmb.tlPos
          simp only [List.length_append]
          omega
        exact ih a.length hlen a rfl _

/-- A substitution for one pattern never creates a match of another
pattern: if no position of the input matches pattern A, then no position
of the output of the scan for pattern B matches pattern A. -/
theorem noCreate_pres {mA mB : List Char → Option (List Char × List Char)}
    {tlA tlB : List Char} {indA : Nat} {R : List Char}
    (hma : MOk mA tlA indA) (hmbB : MB mB tlB) (hro : ROk tlA indA R) :
    ∀ s, NoMatch mA s → NoMatch mA (reSub mB R s) := by
  intro s
  generalize hn : s.length = n
  induction n using Nat.strong_induction_on generalizing s with
  | _ n ih =>
    intro hA
    rcases reSub_decomp hmbB R s with ⟨_, hid⟩ | ⟨u, g, a, hs, hr, hu, hm⟩
    · rw [hid]; exact hA
    · rw [hr]
      intro i
      rcases Nat.lt_or_ge i (u.length + g.length) with hiu | hge1
      · have hdrop : List.drop i (u ++ g ++ R ++ reSub mB R a)
            = (List.drop i (u ++ g)) ++ R ++ reSub mB R a := by
          rw [show u ++ g ++ R ++ reSub mB R a = (u ++ g) ++ (R ++ reSub mB R a) by simp,
            drop_app_le (u ++ g) _ i (by rw [List.length_append]; omega)]
          simp
        have h0 : mA ((List.drop i (u ++ g)) ++ (tlB ++ a)) = none := by
          have h1 := hA i
          rw [hs, show u ++ g ++ tlB ++ a = (u ++ g) ++ (tlB ++ a) by simp,
            drop_app_le (u ++ g) _ i (by rw [List.length_append]; omega)] at h1
          exact h1
        rw [hdrop]
        exact zU hma hro _ _ _ h0
      rcases Nat.lt_or_ge i (u.length + g.length + R.length) with hiR | hge2
      · have hdrop : List.drop i (u ++ g ++ R ++ reSub mB R a)
            = List.drop (i - u.length - g.length) R ++ reSub mB R a := by
          rw [show u ++ g ++ R ++ reSub mB R a = (u ++ g) ++ (R ++ reSub mB R a) by simp,
            drop_app_ge (u ++ g) _ i (by rw [List.length_append]; omega),
            drop_app_le R _ _ (by rw [List.length_append] at *; omega)]
          rw [List.length_append,
            show i - (u.length + g.length) = i - u.length - g.length by omega]
        rw [hdrop]
        exact zR hma hro _ _ (by omega)
      · have hdrop : List.drop i (u ++ g ++ R ++ reSub mB R a)
            = List.drop (i - u.length - g.length - R.length) (reSub mB R a) := by
          rw [show u ++ g ++ R ++ reSub mB R a = (u ++ g) ++ (R ++ reSub mB R a) by simp,
            drop_app_ge (u ++ g) _ i (by rw [List.length_append]; omega),
            drop_app_ge R _ _ (by rw [List.length_append] at *; omega)]
          rw [List.length_append]
          congr 1
          omega
        rw [hdrop]
        have hlen : a.length < n := by
          subst hn
          rw [hs]
          have := hmbB.tlPos
          simp only [List.length_append]
          omega
        have hAa : NoMatch mA a := by
          intro j
          have h1 := hA (u.length + g.length + tlB.length + j)
          rw [hs, show u ++ g ++ tlB ++ a = ((u ++ g) ++ tlB) ++ a by simp,
            drop_app_ge ((u ++ g) ++ tlB) _ _
              (by simp only [List.length_append]; omega)] at h1
          have : u.length + g.length + tlB.length + j - ((u ++ g) ++ tlB).length = j := by
            simp only [List.length_append]
            omega
          rw [this] at h1
          exact h1
        exact ih a.length hlen a rfl hAa _

/-! Pattern 2 is subsumed by pattern 1: wherever pattern 2 matches,
pattern 1 matches the same span (its group also takes the comma). -/

theorem match1_of_match2 {s g a : List Char} (h : match2 s = some (g, a)) :
    match1 s = some (grp2 ++ [','], a) := by
  obtain ⟨hg, hs⟩ := match2_inv s g a h
  subst hg
  have hshape : s = (grp2 ++ [',']) ++ tail1 ++ a := by
    rw [hs]
    simp [tail2]
  rw [hshape]
  unfold match1
  rw [show (grp2 ++ [',']) ++ tail1 ++ a = (grp2 ++ [',']) ++ (tail1 ++ a) by simp]
  rw [show grp2 ++ [','] = indent4 ++ ("response_format").toList ++ ':' :: ' ' ::
      (("ResponseFormatSchema").toList ++ [',']) by decide]
  rw [parseField_self' indent4 ("response_format").toList ("ResponseFormatSchema").toList
      (tail1 ++ a) (by decide) (by decide) (by decide) (by decide)]
  dsimp only
  rw [dropLit_self]

theorem match2_none_of_match1_none {s : List Char} (h : match1 s = none) :
    match2 s = none := by
  cases h2 : match2 s with
  | none => rfl
  | some ga =>
    obtain ⟨g, a⟩ := ga
    rw [match1_of_match2 h2] at h
    simp at h

/-! Bridges between the Boolean and positional no-match forms. -/

theorem noMatchB_iff {m : List Char → Option (List Char × List Char)} {tl : List Char}
    (hmb : MB m tl) (s : List Char) : noMatchB m s = true ↔ NoMatch m s := by
  unfold noMatchB NoMatch
  rw [List.all_eq_true]
  constructor
  · intro h i
    rcases Nat.lt_or_ge i (s.length + 1) with hi | hi
    · have := h i (List.mem_range.mpr hi)
      simpa using this
    · rw [List.drop_eq_nil_of_le (by omega)]
      exact mb_nil hmb
  · intro h x _
    simp [h x]

theorem hasMatchB_iff {m : List Char → Option (List Char × List Char)} {tl : List Char}
    (hmb : MB m tl) (s : List Char) :
    hasMatchB m s = true ↔ ∃ i, (m (List.drop i s)).isSome = true := by
  unfold hasMatchB
  rw [List.any_eq_true]
  constructor
  · intro ⟨i, _, hi⟩
    exact ⟨i, hi⟩
  · intro ⟨i, hi⟩
    refine ⟨i, List.mem_range.mpr ?_, hi⟩
    by_contra hgt
    rw [List.drop_eq_nil_of_le (by omega), mb_nil hmb] at hi
    simp at hi

/-! The no-match facts for the output of each substitution, and identity
of the transformation on match-free text. -/

theorem sub1_noMatch1 (s : List Char) : NoMatch match1 (sub1 s) :=
  noCreate_self mok1 mb1 rok11 s

theorem sub2_pres_noMatch1 (s : List Char) (h : NoMatch match1 s) :
    NoMatch match1 (sub2 s) :=
  noCreate_pres mok1 mb2 rok11 s h

theorem sub3_pres_noMatch1 (s : List Char) (h : NoMatch match1 s) :
    NoMatch match1 (sub3 s) :=
  noCreate_pres mok1 mb3 rok13 s h

theorem sub3_noMatch3 (s : List Char) : NoMatch match3 (sub3 s) :=
  noCreate_self mok3 mb3 rok33 s

theorem transform_noMatch1 (s : List Char) : NoMatch match1 (transform s) :=
  sub3_pres_noMatch1 _ (sub2_pres_noMatch1 _ (sub1_noMatch1 s))

theorem transform_noMatch2 (s : List Char) : NoMatch match2 (transform s) :=
  fun i => match2_none_of_match1_none (transform_noMatch1 s i)

theorem transform_noMatch3 (s : List Char) : NoMatch match3 (transform s) :=
  sub3_noMatch3 _

theorem transform_id_of_noMatch (s : List Char) (h1 : NoMatch match1 s)
    (h2 : NoMatch match2 s) (h3 : NoMatch match3 s) : transform s = s := by
  unfold transform
  rw [show sub1 s = s from noMatch_id mb1 _ s h1]
  rw [show sub2 s = s from noMatch_id mb2 _ s h2]
  exact noMatch_id mb3 _ s h3

/-- C1: for every input text, applying the per-file transformation (the
three regex substitutions in their fixed order) twice in succession
yields the same result as applying it once: the second application
produces no further change. -/
theorem c1_transform_idempotent (s : List Char) :
    transform (transform s) = transform s :=
  transform_id_of_noMatch (transform s) (transform_noMatch1 s)
    (transform_noMatch2 s) (transform_noMatch3 s)

/-- C2: for every input text in which no position matches any of the three
regular-expression patterns, the per-file transformation returns the text
byte for byte unchanged; in particular every occurrence of the spread
idiom whose surrounding whitespace or field ordering differs from the
patterns (and which therefore matches no pattern) is left unmodified. -/
theorem c2_no_match_unchanged (s : List Char)
    (h1 : noMatchB match1 s = true) (h2 : noMatchB match2 s = true)
    (h3 : noMatchB match3 s = true) : transform s = s :=
  transform_id_of_noMatch s ((noMatchB_iff mb1 s).mp h1)
    ((noMatchB_iff mb2 s).mp h2) ((noMatchB_iff mb3 s).mp h3)

/-- Witness for C2 at a concrete input: a text containing the spread token
with a three-space indent (whitespace differing from all three patterns)
matches no pattern and is returned unchanged. -/
theorem c2_no_match_unchanged_witness :
    noMatchB match1 (("   a: b,\n   ...PaginationSchema.shape\n").toList) = true ∧
    noMatchB match2 (("   a: b,\n   ...PaginationSchema.shape\n").toList) = true ∧
    noMatchB match3 (("   a: b,\n   ...PaginationSchema.shape\n").toList) = true ∧
    transform (("   a: b,\n   ...PaginationSchema.shape\n").toList)
      = ("   a: b,\n   ...PaginationSchema.shape\n").toList :=
  ⟨by decide, by decide, by decide,
   c2_no_match_unchanged _ (by decide) (by decide) (by decide)⟩

/-- C9: the pattern2 substitution is dead code.  After the pattern1
substitution no position matches pattern2 (a pattern2 match is a pattern1
match with the same span, so pattern1 already rewrote it), the second
substitution is therefore the identity, and the three-substitution
pipeline is extensionally equal to the pipeline with the second
substitution removed.  On the response_format example the trailing comma
is retained (the group of pattern1 keeps it) rather than dropped as
replacement2 would have done. -/
theorem c9_pattern2_dead_code :
    (∀ s : List Char, NoMatch match2 (sub1 s) ∧ sub2 (sub1 s) = sub1 s ∧
      transform s = sub3 (sub1 s)) ∧
    transform (("    response_format: ResponseFormatSchema,\n    ...PaginationSchema.shape\n  \x7d)\n  .strict()").toList)
      = ("    response_format: ResponseFormatSchema,\n  \x7d)\n  .merge(PaginationSchema)\n  .strict()").toList := by
  constructor
  · intro s
    have hnm2 : NoMatch match2 (sub1 s) :=
      fun i => match2_none_of_match1_none (sub1_noMatch1 s i)
    have hid : sub2 (sub1 s) = sub1 s := noMatch_id mb2 _ _ hnm2
    refine ⟨hnm2, hid, ?_⟩
    unfold transform
    rw [hid]
  · decide

/-! Occurrence machinery: positional facts about token occurrences. -/

theorem isPrefixOf_iff : ∀ (t s : List Char),
    (t.isPrefixOf s = true ↔
      t.length ≤ s.length ∧ ∀ d, d < t.length → t.getD d ' ' = s.getD d ' ')
  | [], s => by simp [List.isPrefixOf]
  | c :: cs, [] => by simp [List.isPrefixOf]
  | c :: cs, x :: xs => by
    simp only [List.isPrefixOf, Bool.and_eq_true, beq_iff_eq]
    constructor
    · intro ⟨hcx, hp⟩
      obtain ⟨hl, hd⟩ := (isPrefixOf_iff cs xs).mp hp
      refine ⟨by simpa using hl, ?_⟩
      intro d hd2
      cases d with
      | zero => simpa using hcx
      | succ d2 =>
        simp only [List.getD_cons_succ]
        exact hd d2 (by simpa using hd2)
    · intro ⟨hl, hd⟩
      refine ⟨by simpa using hd 0 (by simp),
        (isPrefixOf_iff cs xs).mpr ⟨by simpa using hl, ?_⟩⟩
      intro d hd2
      have := hd (d + 1) (by simp only [List.length_cons]; omega)
      simpa using this

theorem occursAtB_iff (t s : List Char) (i : Nat) (ht : 0 < t.length) :
    occursAtB t s i = true ↔ OccAt t s i := by
  unfold occursAtB OccAt
  rw [isPrefixOf_iff]
  constructor
  · intro ⟨hl, hd⟩
    rw [List.length_drop] at hl
    refine ⟨by omega, ?_⟩
    intro d hd2
    rw [← getD_drop]
    exact hd d hd2
  · intro ⟨hl, hd⟩
    rw [List.length_drop]
    exact ⟨by omega, fun d hd2 => by rw [getD_drop]; exact hd d hd2⟩

theorem occursB_true_of (t s : List Char) (i : Nat) (ht : 0 < t.length)
    (h : OccAt t s i) : occursB t s = true := by
  unfold occursB
  rw [List.any_eq_true]
  refine ⟨i, List.mem_range.mpr ?_, (occursAtB_iff t s i ht).mpr h⟩
  have := h.1
  omega

theorem occursB_false_of (t s : List Char) (ht : 0 < t.length)
    (h : ∀ i, ¬ OccAt t s i) : occursB t s = false := by
  by_contra hb
  rw [Bool.not_eq_false] at hb
  unfold occursB at hb
  rw [List.any_eq_true] at hb
  obtain ⟨i, _, hi⟩ := hb
  exact h i ((occursAtB_iff t s i ht).mp hi)

theorem occAt_left {t a : List Char} (b : List Char) {j : Nat} (h : OccAt t a j) :
    OccAt t (a ++ b) j := by
  obtain ⟨hl, hd⟩ := h
  refine ⟨by rw [List.length_append]; omega, ?_⟩
  intro d hd2
  rw [getD_al _ _ _ (by omega)]
  exact hd d hd2

theorem occAt_shift {t b : List Char} (a : List Char) {j : Nat} (h : OccAt t b j) :
    OccAt t (a ++ b) (a.length + j) := by
  obtain ⟨hl, hd⟩ := h
  refine ⟨by rw [List.length_append]; omega, ?_⟩
  intro d hd2
  rw [show a.length + j + d = a.length + (j + d) by omega, getD_ar]
  exact hd d hd2

theorem occAt_restr_left {t a b : List Char} {i : Nat} (h : OccAt t (a ++ b) i)
    (hle : i + t.length ≤ a.length) : OccAt t a i := by
  obtain ⟨hl, hd⟩ := h
  refine ⟨hle, ?_⟩
  intro d hd2
  rw [← getD_al a b _ (by omega)]
  exact hd d hd2

theorem occAt_restr_right {t a b : List Char} {i : Nat} (h : OccAt t (a ++ b) i)
    (hge : a.length ≤ i) : OccAt t b (i - a.length) := by
  obtain ⟨hl, hd⟩ := h
  rw [List.length_append] at hl
  refine ⟨by omega, ?_⟩
  intro d hd2
  have hc := hd d hd2
  rw [show i + d = a.length + (i - a.length + d) by omega, getD_ar] at hc
  exact hc

theorem occAt_drop {t a : List Char} {j k : Nat} (ht : 0 < t.length)
    (h : OccAt t (List.drop j a) k) : OccAt t a (j + k) := by
  obtain ⟨hl, hd⟩ := h
  rw [List.length_drop] at hl
  refine ⟨by omega, ?_⟩
  intro d hd2
  have hc := hd d hd2
  rw [getD_drop, show j + (k + d) = j + k + d by omega] at hc
  exact hc

/-- A match of a pattern whose tail holds the spread token at offset off
puts a spread occurrence in the matched text. -/
theorem match_spread {m : List Char → Option (List Char × List Char)}
    {tl : List Char} {off : Nat} (hmb : MB m tl)
    (hsp : OccAt spreadTok tl off) {s g a : List Char} (h : m s = some (g, a)) :
    OccAt spreadTok s (g.length + off) := by
  have hs := hmb.sound _ g a h
  rw [hs, show g ++ tl ++ a = g ++ (tl ++ a) by simp]
  exact occAt_shift g (occAt_left a hsp)

/-- Text without any spread occurrence matches none of the patterns. -/
theorem noMatch_of_spread_free {m : List Char → Option (List Char × List Char)}
    {tl : List Char} {off : Nat} (hmb : MB m tl)
    (hsp : OccAt spreadTok tl off) (s : List Char)
    (hfree : ∀ i, ¬ OccAt spreadTok s i) : NoMatch m s := by
  intro i
  cases h : m (List.drop i s) with
  | none => rfl
  | some ga =>
    obtain ⟨g, a⟩ := ga
    exact absurd (occAt_drop (by decide) (match_spread hmb hsp h)) (hfree _)

/-- Core rewrite fact: when the input has a match of the pattern and the
spread token occurs at exactly one position, the substitution output is
the input with spread-and-strict span rewritten to the merge form; the
output has no spread occurrence and does have a merge occurrence. -/
theorem sub_unique_spread {m : List Char → Option (List Char × List Char)}
    {tl R : List Char} {off : Nat} (hmb : MB m tl)
    (hsp : OccAt spreadTok tl off)
    (hRnl : R.getD 0 ' ' = '\n') (hRpos : 0 < R.length)
    (hmg : ∃ jm, OccAt mergeTok R jm)
    (hmism : ∀ k, k < R.length → ∃ d, d < R.length - k ∧ d < spreadTok.length ∧
      R.getD (k + d) ' ' ≠ spreadTok.getD d ' ')
    (s : List Char)
    (hhas : ∃ i, (m (List.drop i s)).isSome = true)
    (huni : ∀ i j, OccAt spreadTok s i → OccAt spreadTok s j → i = j) :
    (∀ i, ¬ OccAt spreadTok (reSub m R s) i) ∧
    (∃ i, OccAt mergeTok (reSub m R s) i) ∧
    (∃ u g a, s = u ++ g ++ tl ++ a ∧ reSub m R s = u ++ g ++ R ++ a) := by
  rcases reSub_decomp hmb R s with ⟨hno, _⟩ | ⟨u, g, a, hs, hr, hu, hm⟩
  · exfalso
    obtain ⟨i, hi⟩ := hhas
    rw [hno i] at hi
    simp at hi
  have hsTok : 0 < spreadTok.length := by decide
  have hlug : (u ++ g).length = u.length + g.length := List.length_append u g
  have hpos0 : OccAt spreadTok s ((u ++ g).length + off) := by
    rw [hs, show u ++ g ++ tl ++ a = (u ++ g) ++ (tl ++ a) by simp]
    exact occAt_shift (u ++ g) (occAt_left a hsp)
  have hafree : ∀ j, ¬ OccAt spreadTok a j := by
    intro j hj
    have h2 : OccAt spreadTok s (((u ++ g) ++ tl).length + j) := by
      rw [hs, show u ++ g ++ tl ++ a = ((u ++ g) ++ tl) ++ a by simp]
      exact occAt_shift ((u ++ g) ++ tl) hj
    have heq := huni _ _ hpos0 h2
    have hofftl := hsp.1
    simp only [List.length_append] at heq
    omega
  have hna : NoMatch m a := noMatch_of_spread_free hmb hsp a hafree
  have hra : reSub m R a = a := noMatch_id hmb R a hna
  rw [hra] at hr
  have hOfree : ∀ i, ¬ OccAt spreadTok (u ++ g ++ R ++ a) i := by
    intro i hO
    have hO2 : OccAt spreadTok ((u ++ g) ++ (R ++ a)) i := by
      rw [show (u ++ g) ++ (R ++ a) = u ++ g ++ R ++ a by simp]
      exact hO
    rcases Nat.lt_or_ge i (u ++ g).length with hi1 | hi2
    · rcases le_or_lt (i + spreadTok.length) (u ++ g).length with hin | hstr
      · have hrest : OccAt spreadTok (u ++ g) i := occAt_restr_left hO2 hin
        have hins : OccAt spreadTok s i := by
          rw [hs, show u ++ g ++ tl ++ a = (u ++ g) ++ (tl ++ a) by simp]
          exact occAt_left _ hrest
        have heq := huni _ _ hins hpos0
        omega
      · obtain ⟨hl, hd⟩ := hO2
        have hchar := hd ((u ++ g).length - i) (by omega)
        have hval : ((u ++ g) ++ (R ++ a)).getD (i + ((u ++ g).length - i)) ' '
            = '\n' := by
          rw [show i + ((u ++ g).length - i) = (u ++ g).length + 0 by omega,
            getD_ar, getD_al _ _ _ hRpos]
          exact hRnl
        rw [hval] at hchar
        have hnonl : ∀ d, d < spreadTok.length → spreadTok.getD d ' ' ≠ '\n' := by
          decide
        exact hnonl _ (by omega) hchar
    · rcases Nat.lt_or_ge i ((u ++ g).length + R.length) with hiR | hia
      · obtain ⟨d, hd1, hd2, hne⟩ := hmism (i - (u ++ g).length) (by omega)
        obtain ⟨hl, hdAll⟩ := hO2
        have hchar := hdAll d hd2
        have hval : ((u ++ g) ++ (R ++ a)).getD (i + d) ' '
            = R.getD (i - (u ++ g).length + d) ' ' := by
          rw [show i + d = (u ++ g).length + (i - (u ++ g).length + d) by omega,
            getD_ar, getD_al _ _ _ (by omega)]
        rw [hval] at hchar
        exact hne hchar.symm
      · have h3 : OccAt spreadTok (R ++ a) (i - (u ++ g).length) :=
          occAt_restr_right hO2 (by omega)
        have h4 := occAt_restr_right h3 (show R.length ≤ i - (u ++ g).length by omega)
        exact hafree _ h4
  obtain ⟨jm, hjm⟩ := hmg
  have hOmg : OccAt mergeTok (u ++ g ++ R ++ a) ((u ++ g).length + jm) := by
    rw [show u ++ g ++ R ++ a = (u ++ g) ++ (R ++ a) by simp]
    exact occAt_shift (u ++ g) (occAt_left a hjm)
  rw [hr]
  exact ⟨hOfree, ⟨_, hOmg⟩, ⟨u, g, a, hs, rfl⟩⟩

/-! Spread and merge offsets inside the pattern tails and replacement
suffixes, and the remaining helper bridges. -/

theorem hsp1 : OccAt spreadTok tail1 5 :=
  (occursAtB_iff _ _ _ (by decide)).mp (by decide)

theorem hsp2 : OccAt spreadTok tail2 6 :=
  (occursAtB_iff _ _ _ (by decide)).mp (by decide)

theorem hsp3 : OccAt spreadTok tail3 3 :=
  (occursAtB_iff _ _ _ (by decide)).mp (by decide)

theorem hmg1 : OccAt mergeTok replTail1 8 :=
  (occursAtB_iff _ _ _ (by decide)).mp (by decide)

theorem hmg3 : OccAt mergeTok replTail3 4 :=
  (occursAtB_iff _ _ _ (by decide)).mp (by decide)

theorem hasMatchB_false {m : List Char → Option (List Char × List Char)}
    {tl : List Char} (hmb : MB m tl) (s : List Char)
    (h : hasMatchB m s = false) : NoMatch m s := by
  intro i
  cases hm : m (List.drop i s) with
  | none => rfl
  | some ga =>
    exfalso
    have ht : hasMatchB m s = true :=
      (hasMatchB_iff hmb s).mpr ⟨i, by rw [hm]; rfl⟩
    rw [h] at ht
    simp at ht

theorem noMatch_hasMatchB {m : List Char → Option (List Char × List Char)}
    {tl : List Char} (hmb : MB m tl) (s : List Char)
    (h : NoMatch m s) : hasMatchB m s = false := by
  by_contra hb
  rw [Bool.not_eq_false, hasMatchB_iff hmb s] at hb
  obtain ⟨i, hi⟩ := hb
  rw [h i] at hi
  simp at hi

/-- C3: for every input text containing a match of one of the three
regular expressions and no other occurrence of the spread token, the
transformed output contains the merge call .merge(PaginationSchema) and
no longer contains the spread token ...PaginationSchema.shape. -/
theorem c3_match_rewritten (s : List Char)
    (hhas : (hasMatchB match1 s || hasMatchB match2 s || hasMatchB match3 s) = true)
    (huni : ∀ i, i ≤ s.length → ∀ j, j ≤ s.length →
      occursAtB spreadTok s i = true → occursAtB spreadTok s j = true → i = j) :
    occursB mergeTok (transform s) = true ∧
    occursB spreadTok (transform s) = false := by
  have hsTok : (0 : Nat) < spreadTok.length := by decide
  have huni2 : ∀ i j, OccAt spreadTok s i → OccAt spreadTok s j → i = j := by
    intro i j hi hj
    have hib := hi.1
    have hjb := hj.1
    exact huni i (by omega) j (by omega)
      ((occursAtB_iff _ _ _ hsTok).mpr hi) ((occursAtB_iff _ _ _ hsTok).mpr hj)
  cases hM1 : hasMatchB match1 s with
  | true =>
    obtain ⟨hfree, ⟨im, hmerge⟩, _⟩ :=
      sub_unique_spread mb1 hsp1 (by decide) (by decide) ⟨8, hmg1⟩
        (mismB_spec replTail1 spreadTok (by decide)) s
        ((hasMatchB_iff mb1 s).mp hM1) huni2
    have h2id : sub2 (sub1 s) = sub1 s :=
      noMatch_id mb2 _ _ (noMatch_of_spread_free mb2 hsp2 _ hfree)
    have h3id : sub3 (sub1 s) = sub1 s :=
      noMatch_id mb3 _ _ (noMatch_of_spread_free mb3 hsp3 _ hfree)
    have htr : transform s = sub1 s := by
      unfold transform
      rw [h2id, h3id]
    rw [htr]
    exact ⟨occursB_true_of _ _ im (by decide) hmerge,
      occursB_false_of _ _ (by decide) hfree⟩
  | false =>
    have hn1 : NoMatch match1 s := hasMatchB_false mb1 s hM1
    have hn2 : NoMatch match2 s := fun i => match2_none_of_match1_none (hn1 i)
    have hM3 : hasMatchB match3 s = true := by
      have hM2 : hasMatchB match2 s = false := noMatch_hasMatchB mb2 s hn2
      rw [hM1, hM2] at hhas
      simpa using hhas
    obtain ⟨hfree, ⟨im, hmerge⟩, _⟩ :=
      sub_unique_spread mb3 hsp3 (by decide) (by decide) ⟨4, hmg3⟩
        (mismB_spec replTail3 spreadTok (by decide)) s
        ((hasMatchB_iff mb3 s).mp hM3) huni2
    have h1id : sub1 s = s := noMatch_id mb1 _ _ hn1
    have h2id : sub2 s = s := noMatch_id mb2 _ _ hn2
    have htr : transform s = sub3 s := by
      unfold transform
      rw [h1id, h2id]
    rw [htr]
    exact ⟨occursB_true_of _ _ im (by decide) hmerge,
      occursB_false_of _ _ (by decide) hfree⟩

/-- Witness for C3 at a concrete input: the canonical pattern1 block. -/
theorem c3_match_rewritten_witness :
    ((hasMatchB match1 (("    a: b,\n    ...PaginationSchema.shape\n  \x7d)\n  .strict()").toList) ||
      hasMatchB match2 (("    a: b,\n    ...PaginationSchema.shape\n  \x7d)\n  .strict()").toList) ||
      hasMatchB match3 (("    a: b,\n    ...PaginationSchema.shape\n  \x7d)\n  .strict()").toList)) = true) ∧
    occursB mergeTok (transform (("    a: b,\n    ...PaginationSchema.shape\n  \x7d)\n  .strict()").toList)) = true ∧
    occursB spreadTok (transform (("    a: b,\n    ...PaginationSchema.shape\n  \x7d)\n  .strict()").toList)) = false :=
  ⟨by decide,
   c3_match_rewritten _ (by decide)
     (by decide)⟩

/-- Counterexample to C4 as stated: a text containing a block ending in
the spread line followed by the closing brace and the .strict() call, but
with no preceding field line, is not rewritten at all: the spread stays
and no merge call is inserted. -/
theorem c4_counterexample :
    occursB spreadTok (("    ...PaginationSchema.shape\n  \x7d)\n  .strict()").toList) = true ∧
    transform (("    ...PaginationSchema.shape\n  \x7d)\n  .strict()").toList)
      = ("    ...PaginationSchema.shape\n  \x7d)\n  .strict()").toList ∧
    occursB spreadTok (transform (("    ...PaginationSchema.shape\n  \x7d)\n  .strict()").toList)) = true ∧
    occursB mergeTok (transform (("    ...PaginationSchema.shape\n  \x7d)\n  .strict()").toList)) = false :=
  ⟨by decide, by decide, by decide, by decide⟩

/-- Helper for C4: pattern1 matches at the head of a canonical block. -/
theorem match1_block (w v q : List Char) (hw : w ≠ [])
    (hwall : ∀ c ∈ w, isWordChar c = true) (hv : v ≠ [])
    (hvall : ∀ c ∈ v, isValChar c = true) :
    match1 (fieldLine indent4 w v ++ (tail1 ++ q)) = some (fieldLine indent4 w v, q) := by
  unfold match1 fieldLine
  rw [parseField_self' indent4 w v (tail1 ++ q) hw hwall hv hvall]
  dsimp only
  rw [dropLit_self]

/-- C4 amended: for every input text containing a block whose final field
line has the shape pattern1 expects (four-space indent, [a-zA-Z_]+ name,
": ", comma-and-newline-free value, trailing comma) followed by the spread
line, the closing brace and the .strict() call, and in which the spread
token occurs nowhere else, the transformation removes the spread line and
inserts .merge(PaginationSchema) immediately before .strict(): the block
becomes the merge form and everything around it is unchanged. -/
theorem c4_block_rewritten (p w v q : List Char) (hw : w ≠ [])
    (hwall : ∀ c ∈ w, isWordChar c = true) (hv : v ≠ [])
    (hvall : ∀ c ∈ v, isValChar c = true)
    (huni : ∀ i, i ≤ (p ++ fieldLine indent4 w v ++ tail1 ++ q).length →
      ∀ j, j ≤ (p ++ fieldLine indent4 w v ++ tail1 ++ q).length →
      occursAtB spreadTok (p ++ fieldLine indent4 w v ++ tail1 ++ q) i = true →
      occursAtB spreadTok (p ++ fieldLine indent4 w v ++ tail1 ++ q) j = true → i = j) :
    transform (p ++ fieldLine indent4 w v ++ tail1 ++ q)
      = p ++ fieldLine indent4 w v ++ replTail1 ++ q ∧
    occursB mergeTok (transform (p ++ fieldLine indent4 w v ++ tail1 ++ q)) = true ∧
    occursB spreadTok (transform (p ++ fieldLine indent4 w v ++ tail1 ++ q)) = false := by
  have hsTok : (0 : Nat) < spreadTok.length := by decide
  set x := p ++ fieldLine indent4 w v ++ tail1 ++ q with hx
  have huni2 : ∀ i j, OccAt spreadTok x i → OccAt spreadTok x j → i = j := by
    intro i j hi hj
    have hib := hi.1
    have hjb := hj.1
    exact huni i (by omega) j (by omega)
      ((occursAtB_iff _ _ _ hsTok).mpr hi) ((occursAtB_iff _ _ _ hsTok).mpr hj)
  have hhas : ∃ i, (match1 (List.drop i x)).isSome = true := by
    refine ⟨p.length, ?_⟩
    rw [hx, show p ++ fieldLine indent4 w v ++ tail1 ++ q
        = p ++ (fieldLine indent4 w v ++ (tail1 ++ q)) by simp, List.drop_left]
    rw [match1_block w v q hw hwall hv hvall]
    rfl
  obtain ⟨hfree, ⟨im, hmerge⟩, u, g, a, hxug, hrw⟩ :=
    sub_unique_spread mb1 hsp1 (by decide) (by decide) ⟨8, hmg1⟩
      (mismB_spec replTail1 spreadTok (by decide)) x hhas huni2
  have hposM : OccAt spreadTok x ((u ++ g).length + 5) := by
    rw [hxug, show u ++ g ++ tail1 ++ a = (u ++ g) ++ (tail1 ++ a) by simp]
    exact occAt_shift (u ++ g) (occAt_left a hsp1)
  have hpos0 : OccAt spreadTok x ((p ++ fieldLine indent4 w v).length + 5) := by
    rw [hx, show p ++ fieldLine indent4 w v ++ tail1 ++ q
        = (p ++ fieldLine indent4 w v) ++ (tail1 ++ q) by simp]
    exact occAt_shift (p ++ fieldLine indent4 w v) (occAt_left q hsp1)
  have hlen : (u ++ g).length = (p ++ fieldLine indent4 w v).length := by
    have := huni2 _ _ hposM hpos0
    omega
  have hsplit : (u ++ g) = p ++ fieldLine indent4 w v ∧ tail1 ++ a = tail1 ++ q := by
    apply List.append_inj _ hlen
    rw [show (u ++ g) ++ (tail1 ++ a) = u ++ g ++ tail1 ++ a by simp, ← hxug, hx]
    simp
  have haq : a = q := List.append_cancel_left hsplit.2
  have hout : reSub match1 replTail1 x = p ++ fieldLine indent4 w v ++ replTail1 ++ q := by
    rw [hrw, show u ++ g ++ replTail1 ++ a = (u ++ g) ++ replTail1 ++ a by simp,
      hsplit.1, haq]
  have h2id : sub2 (sub1 x) = sub1 x :=
    noMatch_id mb2 _ _ (noMatch_of_spread_free mb2 hsp2 _ hfree)
  have h3id : sub3 (sub1 x) = sub1 x :=
    noMatch_id mb3 _ _ (noMatch_of_spread_free mb3 hsp3 _ hfree)
  have htr : transform x = sub1 x := by
    unfold transform
    rw [h2id, h3id]
  refine ⟨?_, ?_, ?_⟩
  · rw [htr]
    exact hout
  · rw [htr]
    exact occursB_true_of _ _ im (by decide) hmerge
  · rw [htr]
    exact occursB_false_of _ _ (by decide) hfree

set_option maxRecDepth 8000 in
/-- Witness for C4 amended at a concrete input: a block preceded and
followed by surrounding text is rewritten to the merge form in place. -/
theorem c4_block_rewritten_witness :
    transform (("const Q = z.object(\x7b\n").toList
        ++ fieldLine indent4 ("limit").toList ("LimitSchema").toList ++ tail1
        ++ ("\n").toList)
      = ("const Q = z.object(\x7b\n").toList
        ++ fieldLine indent4 ("limit").toList ("LimitSchema").toList ++ replTail1
        ++ ("\n").toList :=
  (c4_block_rewritten _ _ _ _ (by decide) (by decide) (by decide) (by decide)
    (by decide)).1

/-! Unfolding lemmas and general facts about the run model. -/

theorem runFiles_nil (fs : FS) : runFiles fs [] = ⟨fs, [], [], true⟩ := rfl

theorem runFiles_cons_ok {fs : FS} {p : String} (ps : List String) {c : List Char}
    (hc : fs.contents p = some c) (hw : fs.writable p = true) :
    runFiles fs (p :: ps) =
      ⟨(runFiles (writeFS fs p (transform c)) ps).fs,
       ("✓ Fixed " ++ p) :: (runFiles (writeFS fs p (transform c)) ps).outs,
       (p, transform c) :: (runFiles (writeFS fs p (transform c)) ps).writes,
       (runFiles (writeFS fs p (transform c)) ps).completed⟩ := by
  conv_lhs => rw [runFiles]
  rw [hc, hw]

theorem runFiles_cons_fail {fs : FS} {p : String} (ps : List String)
    (h : (fs.contents p).isSome = false ∨ fs.writable p = false) :
    runFiles fs (p :: ps) = ⟨fs, [], [], false⟩ := by
  conv_lhs => rw [runFiles]
  rcases h with h | h
  · cases hc : fs.contents p with
    | none =>
      cases hw : fs.writable p <;> rfl
    | some c =>
      rw [hc] at h
      simp at h
  · rw [h]
    cases hc : fs.contents p <;> rfl

theorem runFiles_fail_after {fs : FS} {ps : List String} {p : String} (qs : List String)
    (hok : ∀ q ∈ ps, (fs.contents q).isSome = true ∧ fs.writable q = true)
    (hbad : (fs.contents p).isSome = false ∨ fs.writable p = false) :
    (runFiles fs (ps ++ p :: qs)).outs = ps.map (fun q => "✓ Fixed " ++ q) ∧
    (runFiles fs (ps ++ p :: qs)).completed = false ∧
    ∀ q, q ∉ ps → (runFiles fs (ps ++ p :: qs)).fs.contents q = fs.contents q := by
  induction ps generalizing fs with
  | nil =>
    rw [List.nil_append, runFiles_cons_fail qs hbad]
    exact ⟨rfl, rfl, fun q _ => rfl⟩
  | cons r rs ih =>
    obtain ⟨hc1, hw1⟩ := hok r (by simp)
    obtain ⟨c, hc⟩ := Option.isSome_iff_exists.mp hc1
    have hpr : p ≠ r := by
      intro he
      subst he
      rcases hbad with hb | hb
      · rw [hc1] at hb; simp at hb
      · rw [hw1] at hb; simp at hb
    have hok2 : ∀ q ∈ rs, (((writeFS fs r (transform c)).contents q).isSome = true ∧
        (writeFS fs r (transform c)).writable q = true) := by
      intro q hq
      by_cases hqr : q = r
      · subst hqr
        constructor
        · simp [writeFS]
        · exact hw1
      · have := hok q (by simp [hq])
        constructor
        · simpa [writeFS, hqr] using this.1
        · exact this.2
    have hbad2 : ((writeFS fs r (transform c)).contents p).isSome = false ∨
        (writeFS fs r (transform c)).writable p = false := by
      rcases hbad with hb | hb
      · left
        simpa [writeFS, hpr] using hb
      · right
        exact hb
    obtain ⟨ho, hcm, hfr⟩ := ih hok2 hbad2
    rw [List.cons_append, runFiles_cons_ok (rs ++ p :: qs) hc hw1]
    refine ⟨?_, hcm, ?_⟩
    · simp only [List.map_cons]
      rw [ho]
    · intro q hq
      have hq1 : q ≠ r := fun h => hq (h ▸ List.mem_cons_self r rs)
      have hq2 : q ∉ rs := fun h => hq (List.mem_cons_of_mem r h)
      rw [hfr q hq2]
      simp [writeFS, hq1]

theorem runFiles_det (l : List String) : ∀ (fsa fsb : FS),
    (∀ p ∈ l, fsa.contents p = fsb.contents p) →
    (∀ p ∈ l, fsa.writable p = fsb.writable p) →
    (runFiles fsa l).outs = (runFiles fsb l).outs ∧
    (runFiles fsa l).writes = (runFiles fsb l).writes ∧
    (runFiles fsa l).completed = (runFiles fsb l).completed ∧
    ∀ p, ((runFiles fsa l).fs.contents p = fsa.contents p ∧
          (runFiles fsb l).fs.contents p = fsb.contents p) ∨
      (runFiles fsa l).fs.contents p = (runFiles fsb l).fs.contents p := by
  induction l with
  | nil =>
    intro fsa fsb _ _
    exact ⟨rfl, rfl, rfl, fun p => Or.inl ⟨rfl, rfl⟩⟩
  | cons r rs ih =>
    intro fsa fsb hc hw
    have hcr : fsa.contents r = fsb.contents r := hc r (by simp)
    have hwr : fsa.writable r = fsb.writable r := hw r (by simp)
    cases hca : fsa.contents r with
    | none =>
      have hcb : fsb.contents r = none := by rw [← hcr, hca]
      rw [runFiles_cons_fail rs (by rw [hca]; simp),
        runFiles_cons_fail rs (by rw [hcb]; simp)]
      exact ⟨rfl, rfl, rfl, fun p => Or.inl ⟨rfl, rfl⟩⟩
    | some c =>
      have hcb : fsb.contents r = some c := by rw [← hcr, hca]
      cases hwa : fsa.writable r with
      | false =>
        have hwb : fsb.writable r = false := by rw [← hwr, hwa]
        rw [runFiles_cons_fail rs (Or.inr hwa), runFiles_cons_fail rs (Or.inr hwb)]
        exact ⟨rfl, rfl, rfl, fun p => Or.inl ⟨rfl, rfl⟩⟩
      | true =>
        have hwb : fsb.writable r = true := by rw [← hwr, hwa]
        have hc2 : ∀ p ∈ rs, (writeFS fsa r (transform c)).contents p
            = (writeFS fsb r (transform c)).contents p := by
          intro p hp
          by_cases hpr : p = r
          · subst hpr
            simp [writeFS]
          · simpa [writeFS, hpr] using hc p (by simp [hp])
        have hw2 : ∀ p ∈ rs, (writeFS fsa r (transform c)).writable p
            = (writeFS fsb r (transform c)).writable p := by
          intro p hp
          exact hw p (by simp [hp])
        obtain ⟨ho, hwr2, hcm, hinv⟩ :=
          ih (writeFS fsa r (transform c)) (writeFS fsb r (transform c)) hc2 hw2
        rw [runFiles_cons_ok rs hca hwa, runFiles_cons_ok rs hcb hwb]
        refine ⟨by rw [ho], by rw [hwr2], hcm, ?_⟩
        intro p
        rcases hinv p with ⟨ha, hb⟩ | heq
        · by_cases hpr : p = r
          · subst hpr
            right
            rw [ha, hb]
            simp [writeFS]
          · left
            rw [ha, hb]
            constructor <;> simp [writeFS, hpr]
        · exact Or.inr heq

theorem runScript_success (fs : FS) (c1 c2 c3 : List Char)
    (h1 : fs.contents ("src/tools/discovery.ts") = some c1)
    (h2 : fs.contents ("src/tools/reading.ts") = some c2)
    (h3 : fs.contents ("src/schemas/common.ts") = some c3)
    (hw1 : fs.writable ("src/tools/discovery.ts") = true)
    (hw2 : fs.writable ("src/tools/reading.ts") = true)
    (hw3 : fs.writable ("src/schemas/common.ts") = true) :
    runScript fs =
      ⟨writeFS (writeFS (writeFS fs ("src/tools/discovery.ts") (transform c1))
          "src/tools/reading.ts" (transform c2)) "src/schemas/common.ts" (transform c3),
       ["✓ Fixed src/tools/discovery.ts", "✓ Fixed src/tools/reading.ts",
        "✓ Fixed src/schemas/common.ts", doneLine],
       [("src/tools/discovery.ts", transform c1), ("src/tools/reading.ts", transform c2),
        ("src/schemas/common.ts", transform c3)], true⟩ := by
  have h2' : (writeFS fs ("src/tools/discovery.ts") (transform c1)).contents
      "src/tools/reading.ts" = some c2 := by
    rw [show (writeFS fs ("src/tools/discovery.ts") (transform c1)).contents
        "src/tools/reading.ts"
      = fs.contents ("src/tools/reading.ts") by simp [writeFS], h2]
  have h3' : (writeFS (writeFS fs ("src/tools/discovery.ts") (transform c1))
      "src/tools/reading.ts" (transform c2)).contents ("src/schemas/common.ts")
      = some c3 := by
    rw [show (writeFS (writeFS fs ("src/tools/discovery.ts") (transform c1))
        "src/tools/reading.ts" (transform c2)).contents ("src/schemas/common.ts")
      = fs.contents ("src/schemas/common.ts") by simp [writeFS], h3]
  unfold runScript files_to_fix
  rw [runFiles_cons_ok _ h1 hw1, runFiles_cons_ok _ h2' hw2,
    runFiles_cons_ok _ h3' hw3, runFiles_nil]
  rfl

theorem runScript_fail (fs : FS) (h : (runFiles fs files_to_fix).completed = false) :
    runScript fs = runFiles fs files_to_fix := by
  simp [runScript, h]

/-- C5: the script performs exactly one operation, applied identically to
each of exactly three hard-coded file paths, in list order: for each file
it reads the full text, applies the three regular-expression
substitutions in the fixed order (pattern1, then pattern2, then pattern3,
pattern3 included for every file), and writes the result back. -/
theorem c5_one_operation_three_files :
    files_to_fix = ["src/tools/discovery.ts", "src/tools/reading.ts",
      "src/schemas/common.ts"] ∧
    ∀ (fs : FS) (c1 c2 c3 : List Char),
      fs.contents ("src/tools/discovery.ts") = some c1 →
      fs.contents ("src/tools/reading.ts") = some c2 →
      fs.contents ("src/schemas/common.ts") = some c3 →
      fs.writable ("src/tools/discovery.ts") = true →
      fs.writable ("src/tools/reading.ts") = true →
      fs.writable ("src/schemas/common.ts") = true →
      (runScript fs).fs.contents ("src/tools/discovery.ts")
          = some (sub3 (sub2 (sub1 c1))) ∧
      (runScript fs).fs.contents ("src/tools/reading.ts")
          = some (sub3 (sub2 (sub1 c2))) ∧
      (runScript fs).fs.contents ("src/schemas/common.ts")
          = some (sub3 (sub2 (sub1 c3))) := by
  refine ⟨rfl, ?_⟩
  intro fs c1 c2 c3 h1 h2 h3 hw1 hw2 hw3
  rw [runScript_success fs c1 c2 c3 h1 h2 h3 hw1 hw2 hw3]
  refine ⟨?_, ?_, ?_⟩
  · simp [writeFS, transform]
  · simp [writeFS, transform]
  · simp [writeFS, transform]

/-- Witness for C5: the conjunct about the hard-coded list holds, and at a
concrete file system the three final contents are the triple-substituted
originals. -/
theorem c5_one_operation_three_files_witness :
    (runScript sampleFS).fs.contents ("src/tools/discovery.ts")
        = some (sub3 (sub2 (sub1 (("a, b\n").toList)))) ∧
    (runScript sampleFS).fs.contents ("src/tools/reading.ts")
        = some (sub3 (sub2 (sub1 []))) ∧
    (runScript sampleFS).fs.contents ("src/schemas/common.ts")
        = some (sub3 (sub2 (sub1
          (("  x: y,\n  ...PaginationSchema.shape\n\x7d)\n.strict()").toList)))) :=
  c5_one_operation_three_files.2 sampleFS (("a, b\n").toList) []
    (("  x: y,\n  ...PaginationSchema.shape\n\x7d)\n.strict()").toList)
    (by decide) (by decide) (by decide) (by decide) (by decide) (by decide)

/-- C6: on a run where every listed file is readable and writable,
standard output receives exactly one confirmation line naming each of the
three files, in list order, followed by a single final completion line;
no condition on the contents is needed, so a file with no occurrence of
any pattern still gets its confirmation line. -/
theorem c6_confirmation_lines (fs : FS) (c1 c2 c3 : List Char)
    (h1 : fs.contents ("src/tools/discovery.ts") = some c1)
    (h2 : fs.contents ("src/tools/reading.ts") = some c2)
    (h3 : fs.contents ("src/schemas/common.ts") = some c3)
    (hw1 : fs.writable ("src/tools/discovery.ts") = true)
    (hw2 : fs.writable ("src/tools/reading.ts") = true)
    (hw3 : fs.writable ("src/schemas/common.ts") = true) :
    (runScript fs).outs =
      ["✓ Fixed src/tools/discovery.ts", "✓ Fixed src/tools/reading.ts",
       "✓ Fixed src/schemas/common.ts", "\nDone! All files fixed."] := by
  rw [runScript_success fs c1 c2 c3 h1 h2 h3 hw1 hw2 hw3]
  rfl

/-- Witness for C6: a concrete run in which the second file has no
occurrence of any pattern still prints all three confirmation lines and
the completion line. -/
theorem c6_confirmation_lines_witness :
    (runScript sampleFS).outs =
      ["✓ Fixed src/tools/discovery.ts", "✓ Fixed src/tools/reading.ts",
       "✓ Fixed src/schemas/common.ts", "\nDone! All files fixed."] :=
  c6_confirmation_lines sampleFS (("a, b\n").toList) []
    (("  x: y,\n  ...PaginationSchema.shape\n\x7d)\n.strict()").toList)
    (by decide) (by decide) (by decide) (by decide) (by decide) (by decide)

/-- C7: if some listed file cannot be read or written, the error
propagates unhandled and aborts the run: files from the failing one on
are left unchanged, only the files before it get confirmation lines, and
the final completion line is not printed. -/
theorem c7_error_unhandled (fs : FS) (ps : List String) (p : String) (qs : List String)
    (hsplit : files_to_fix = ps ++ p :: qs)
    (hok : ∀ q ∈ ps, (fs.contents q).isSome = true ∧ fs.writable q = true)
    (hbad : (fs.contents p).isSome = false ∨ fs.writable p = false) :
    (runScript fs).outs = ps.map (fun q => "✓ Fixed " ++ q) ∧
    (runScript fs).completed = false ∧
    ∀ q, q ∉ ps → (runScript fs).fs.contents q = fs.contents q := by
  obtain ⟨ho, hcm, hfr⟩ := runFiles_fail_after qs hok hbad
  have hrs : runScript fs = runFiles fs (ps ++ p :: qs) := by
    rw [show runFiles fs (ps ++ p :: qs) = runFiles fs files_to_fix by rw [hsplit]]
    exact runScript_fail fs (by rw [hsplit]; exact hcm)
  rw [hrs]
  exact ⟨ho, hcm, hfr⟩

/-- Witness for C7: with the second listed file missing, only the first
confirmation line is printed, the run does not complete, and the second
and third files are untouched. -/
theorem c7_error_unhandled_witness :
    (runScript brokenFS).outs
      = List.map (fun q => "✓ Fixed " ++ q) ["src/tools/discovery.ts"] ∧
    (runScript brokenFS).completed = false ∧
    (runScript brokenFS).fs.contents ("src/tools/reading.ts")
      = brokenFS.contents ("src/tools/reading.ts") ∧
    (runScript brokenFS).fs.contents ("src/schemas/common.ts")
      = brokenFS.contents ("src/schemas/common.ts") := by
  obtain ⟨h1, h2, h3⟩ := c7_error_unhandled brokenFS ["src/tools/discovery.ts"]
    "src/tools/reading.ts" ["src/schemas/common.ts"] (by decide)
    (by decide) (by decide)
  exact ⟨h1, h2, h3 _ (by decide), h3 _ (by decide)⟩

/-- C8: on a successful run each of the three listed files is written
exactly once, to its own path, with the transformed content, even when
the content is unchanged, and no path outside the three is created or
modified. -/
theorem c8_writes_and_frame (fs : FS) (c1 c2 c3 : List Char)
    (h1 : fs.contents ("src/tools/discovery.ts") = some c1)
    (h2 : fs.contents ("src/tools/reading.ts") = some c2)
    (h3 : fs.contents ("src/schemas/common.ts") = some c3)
    (hw1 : fs.writable ("src/tools/discovery.ts") = true)
    (hw2 : fs.writable ("src/tools/reading.ts") = true)
    (hw3 : fs.writable ("src/schemas/common.ts") = true) :
    (runScript fs).writes =
      [("src/tools/discovery.ts", transform c1),
       ("src/tools/reading.ts", transform c2),
       ("src/schemas/common.ts", transform c3)] ∧
    ∀ q, q ∉ files_to_fix → (runScript fs).fs.contents q = fs.contents q := by
  rw [runScript_success fs c1 c2 c3 h1 h2 h3 hw1 hw2 hw3]
  refine ⟨rfl, ?_⟩
  intro q hq
  have hq1 : q ≠ "src/tools/discovery.ts" := by
    intro he
    exact hq (by rw [he]; simp [files_to_fix])
  have hq2 : q ≠ "src/tools/reading.ts" := by
    intro he
    exact hq (by rw [he]; simp [files_to_fix])
  have hq3 : q ≠ "src/schemas/common.ts" := by
    intro he
    exact hq (by rw [he]; simp [files_to_fix])
  simp [writeFS, hq1, hq2, hq3]

/-- Witness for C8: the concrete run writes exactly the three files once
each, including the unchanged second file, and an unrelated path keeps
its (absent) content. -/
theorem c8_writes_and_frame_witness :
    (runScript sampleFS).writes =
      [("src/tools/discovery.ts", transform (("a, b\n").toList)),
       ("src/tools/reading.ts", transform []),
       ("src/schemas/common.ts", transform
         (("  x: y,\n  ...PaginationSchema.shape\n\x7d)\n.strict()").toList))] ∧
    (runScript sampleFS).fs.contents ("README.md") = sampleFS.contents ("README.md") := by
  obtain ⟨h1, h2⟩ := c8_writes_and_frame sampleFS (("a, b\n").toList) []
    (("  x: y,\n  ...PaginationSchema.shape\n\x7d)\n.strict()").toList)
    (by decide) (by decide) (by decide) (by decide) (by decide) (by decide)
  exact ⟨h1, h2 _ (by decide)⟩

/-- C10: the run is deterministic and consults nothing but the three
listed files: two runs on file systems agreeing on those files produce
the same standard output, the same write events, the same completion,
and the same final contents of the listed files. -/
theorem c10_deterministic (fsa fsb : FS)
    (hc : ∀ p ∈ files_to_fix, fsa.contents p = fsb.contents p)
    (hw : ∀ p ∈ files_to_fix, fsa.writable p = fsb.writable p) :
    (runScript fsa).outs = (runScript fsb).outs ∧
    (runScript fsa).writes = (runScript fsb).writes ∧
    (runScript fsa).completed = (runScript fsb).completed ∧
    ∀ p ∈ files_to_fix, (runScript fsa).fs.contents p = (runScript fsb).fs.contents p := by
  obtain ⟨ho, hwr, hcm, hinv⟩ := runFiles_det files_to_fix fsa fsb hc hw
  have hfinal : ∀ p ∈ files_to_fix,
      (runFiles fsa files_to_fix).fs.contents p
        = (runFiles fsb files_to_fix).fs.contents p := by
    intro p hp
    rcases hinv p with ⟨ha, hb⟩ | heq
    · rw [ha, hb]
      exact hc p hp
    · exact heq
  cases hb : (runFiles fsb files_to_fix).completed with
  | true =>
    have ha : (runFiles fsa files_to_fix).completed = true := by rw [hcm, hb]
    have hA : runScript fsa = ⟨(runFiles fsa files_to_fix).fs,
        (runFiles fsa files_to_fix).outs ++ [doneLine],
        (runFiles fsa files_to_fix).writes, true⟩ := by
      simp [runScript, ha]
    have hB : runScript fsb = ⟨(runFiles fsb files_to_fix).fs,
        (runFiles fsb files_to_fix).outs ++ [doneLine],
        (runFiles fsb files_to_fix).writes, true⟩ := by
      simp [runScript, hb]
    rw [hA, hB]
    exact ⟨by rw [ho], by rw [hwr], rfl, hfinal⟩
  | false =>
    have ha : (runFiles fsa files_to_fix).completed = false := by rw [hcm, hb]
    rw [runScript_fail fsa ha, runScript_fail fsb hb]
    exact ⟨ho, hwr, hcm, hfinal⟩

/-- Witness for C10: a file system with one extra unrelated file produces
exactly the same run as the sample file system. -/
theorem c10_deterministic_witness :
    (runScript sampleFS).outs = (runScript sampleFS2).outs ∧
    (runScript sampleFS).writes = (runScript sampleFS2).writes ∧
    (runScript sampleFS).completed = (runScript sampleFS2).completed :=
  have h := c10_deterministic sampleFS sampleFS2 (by decide) (by decide)
  ⟨h.1, h.2.1, h.2.2.1⟩

end FixShapeSpreads
